import Mathlib

/-!
Shallow embedding of the URI parser in `src/http/mod.rs` (a nom-based
recursive-descent parser).  Inputs are lists of characters (Rust `&str`
slices), parsers return a remaining suffix and a value, a verbose error
(list of (input, kind) entries, innermost first), or a panic marker that
models Rust's `panic!` in `impl From<&str> for Scheme`.
-/

abbrev Input := List Char

/-- nom's `AsChar::is_alpha` for `char` (ASCII alphabetic). -/
def isAlphaChar (c : Char) : Bool :=
  (65 ≤ c.toNat && c.toNat ≤ 90) || (97 ≤ c.toNat && c.toNat ≤ 122)

/-- ASCII decimal digit. -/
def isDigitChar (c : Char) : Bool := 48 ≤ c.toNat && c.toNat ≤ 57

/-- nom's `AsChar::is_alphanum`. -/
def isAlphanumChar (c : Char) : Bool := isAlphaChar c || isDigitChar c

/-- ASCII lowercasing of one character (`char::to_lowercase` on the
ASCII tags this program matches). -/
def lowerChar (c : Char) : Char :=
  if 65 ≤ c.toNat && c.toNat ≤ 90 then Char.ofNat (c.toNat + 32) else c

/-- `str::to_lowercase` on ASCII text. -/
def lowerStr (s : Input) : Input := s.map lowerChar

/-- nom `ErrorKind` values that this program's combinators can produce. -/
inductive NomKind
  | Tag | Alt | OneOf | ManyMN | Many0 | Many1 | Count | AlphaNumeric | Alpha | Eof
  deriving DecidableEq, Repr

/-- One entry of a `VerboseError` trail: a plain error kind or a context label. -/
inductive VEKind
  | Nomk (k : NomKind)
  | Context (label : String)
  deriving DecidableEq, Repr

/-- nom's `VerboseError`: (remaining input, kind) entries, innermost first. -/
structure VerboseError where
  errors : List (Input × VEKind)
  deriving DecidableEq, Repr

/-- Result of running a parser: success with remaining input, a nom error
(`Err::Error`; this program never produces `Err::Failure`), or a Rust panic. -/
inductive PResult (α : Type)
  | ok (rest : Input) (val : α)
  | err (e : VerboseError)
  | panic
  deriving DecidableEq, Repr

abbrev Parser (α : Type) := Input → PResult α

/-- Sequencing: nom's `tuple`/`terminated`/`separated_pair` all thread the
input and propagate the first error unchanged. -/
def pbind {α β : Type} (p : Parser α) (f : α → Parser β) : Parser β := fun i =>
  match p i with
  | .ok r v => f v r
  | .err e => .err e
  | .panic => .panic

def pmap {α β : Type} (p : Parser α) (f : α → β) : Parser β := fun i =>
  match p i with
  | .ok r v => .ok r (f v)
  | .err e => .err e
  | .panic => .panic

/-- nom `terminated(p, q)`: run both, keep `p`'s value. -/
def terminatedP {α β : Type} (p : Parser α) (q : Parser β) : Parser α :=
  pbind p fun a => pmap q fun _ => a

/-- nom `separated_pair(p, sep, q)`. -/
def separatedPairP {α β γ : Type} (p : Parser α) (sep : Parser β) (q : Parser γ) :
    Parser (α × γ) :=
  pbind p fun a => pbind sep fun _ => pmap q fun b => (a, b)

/-- nom `opt(p)`: converts an `Err::Error` into `None` without consuming. -/
def optP {α : Type} (p : Parser α) : Parser (Option α) := fun i =>
  match p i with
  | .ok r v => .ok r (some v)
  | .err _ => .ok i none
  | .panic => .panic

/-- nom `alt((p, q))`: try `p`; on error try `q`; if both fail, keep the
last error and append an `Alt` entry at the original input. -/
def alt2 {α : Type} (p q : Parser α) : Parser α := fun i =>
  match p i with
  | .ok r v => .ok r v
  | .panic => .panic
  | .err _ =>
    match q i with
    | .ok r v => .ok r v
    | .panic => .panic
    | .err e2 => .err ⟨e2.errors ++ [(i, .Nomk .Alt)]⟩

/-- nom `context(label, p)`: on error, append a `Context` entry at the
original input. -/
def contextP {α : Type} (label : String) (p : Parser α) : Parser α := fun i =>
  match p i with
  | .err e => .err ⟨e.errors ++ [(i, .Context label)]⟩
  | r => r

/-- nom `tag(t)` (complete): match the literal prefix `t`. -/
def tagP (t : Input) : Parser Input := fun i =>
  if t.isPrefixOf i then .ok (i.drop t.length) t
  else .err ⟨[(i, .Nomk .Tag)]⟩

/-- nom `tag_no_case(t)` (complete, for `&str`): match `t` case-insensitively,
returning the matched slice of the input in its original case. -/
def tagNoCaseP (t : Input) : Parser Input := fun i =>
  if lowerStr (i.take t.length) = lowerStr t then .ok (i.drop t.length) (i.take t.length)
  else .err ⟨[(i, .Nomk .Tag)]⟩

/-- nom `take(n)` (complete). -/
def takeP (n : Nat) : Parser Input := fun i =>
  if n ≤ i.length then .ok (i.drop n) (i.take n)
  else .err ⟨[(i, .Nomk .Eof)]⟩

/-- nom `one_of(cs)`. -/
def oneOfP (cs : Input) : Parser Char := fun i =>
  match i with
  | [] => .err ⟨[([], .Nomk .OneOf)]⟩
  | c :: rest => if cs.contains c then .ok rest c else .err ⟨[(c :: rest, .Nomk .OneOf)]⟩

/-- `split_at_position1_complete(pred, kind)`: take the maximal prefix of
characters NOT satisfying `pred`; error if that prefix is empty. -/
def splitAtPosition1Complete (pred : Char → Bool) (k : NomKind) : Parser Input := fun i =>
  if (i.takeWhile (fun c => !(pred c))).isEmpty then .err ⟨[(i, .Nomk k)]⟩
  else .ok (i.drop (i.takeWhile (fun c => !(pred c))).length) (i.takeWhile (fun c => !(pred c)))

/-- `split_at_position_complete(pred)`: like the `1` version but an empty
prefix is a success. -/
def splitAtPositionComplete (pred : Char → Bool) : Parser Input := fun i =>
  .ok (i.drop (i.takeWhile (fun c => !(pred c))).length) (i.takeWhile (fun c => !(pred c)))

/-- nom `alphanumeric1`. -/
def alphanumeric1 : Parser Input :=
  splitAtPosition1Complete (fun c => !(isAlphanumChar c)) .AlphaNumeric

/-- nom `alpha1`. -/
def alpha1 : Parser Input :=
  splitAtPosition1Complete (fun c => !(isAlphaChar c)) .Alpha

/-- `alphanumerichyphen1` from the source: one or more alphanumeric-or-hyphen
characters. -/
def alphanumerichyphen1 : Parser Input :=
  splitAtPosition1Complete (fun c => c != '-' && !(isAlphanumChar c)) .AlphaNumeric

/-- `url_code_points` from the source: maximal (possibly empty) run of
alphanumeric, `-` and `.` characters. -/
def url_code_points : Parser Input :=
  splitAtPositionComplete (fun c => c != '-' && !(isAlphanumChar c) && c != '.')

/-- The character class accepted by `url_code_points` (negation of its
split predicate). -/
def isUrlChar (c : Char) : Bool := !(c != '-' && !(isAlphanumChar c) && c != '.')

/-- Loop of nom `many0(p)`: stop (success) on inner error; error with kind
`Many0` when the inner parser succeeds without consuming.  `fuel` bounds the
iteration count; callers pass `input.length + 1`, which the progress check
makes sufficient. -/
def many0Go {α : Type} (p : Parser α) : Nat → Input → PResult (List α)
  | 0, i => .ok i []
  | fuel + 1, i =>
    match p i with
    | .err _ => .ok i []
    | .panic => .panic
    | .ok tail v =>
      if tail.length = i.length then .err ⟨[(i, .Nomk .Many0)]⟩
      else
        match many0Go p fuel tail with
        | .ok r vs => .ok r (v :: vs)
        | .err e => .err e
        | .panic => .panic

/-- nom `many0(p)`. -/
def many0P {α : Type} (p : Parser α) : Parser (List α) := fun i =>
  many0Go p (i.length + 1) i

/-- Loop of nom `many1(p)` after the first element: same as `many0` but the
no-progress error kind is `Many1`. -/
def many1Go {α : Type} (p : Parser α) : Nat → Input → PResult (List α)
  | 0, i => .ok i []
  | fuel + 1, i =>
    match p i with
    | .err _ => .ok i []
    | .panic => .panic
    | .ok tail v =>
      if tail.length = i.length then .err ⟨[(i, .Nomk .Many1)]⟩
      else
        match many1Go p fuel tail with
        | .ok r vs => .ok r (v :: vs)
        | .err e => .err e
        | .panic => .panic

/-- nom `many1(p)`: first element mandatory (failure appends `Many1`),
then the `many0`-style loop. -/
def many1P {α : Type} (p : Parser α) : Parser (List α) := fun i =>
  match p i with
  | .err e => .err ⟨e.errors ++ [(i, .Nomk .Many1)]⟩
  | .panic => .panic
  | .ok tail v =>
    match many1Go p (tail.length + 1) tail with
    | .ok r vs => .ok r (v :: vs)
    | .err e => .err e
    | .panic => .panic

/-- nom `many_m_n(mn, mx, p)`, with `mn` counted down as elements are read:
on inner error, fail (appending `ManyMN` at the current input) iff fewer than
`mn` elements were read, otherwise succeed.  (nom also rejects `min > max`
with an `Err::Failure`; every call in this repository has `min ≤ max`, so
that branch is not modelled.) -/
def manyMNGo {α : Type} (p : Parser α) : Nat → Nat → Input → PResult (List α)
  | _, 0, i => .ok i []
  | mn, mx + 1, i =>
    match p i with
    | .panic => .panic
    | .err e =>
      if 0 < mn then .err ⟨e.errors ++ [(i, .Nomk .ManyMN)]⟩ else .ok i []
    | .ok tail v =>
      if tail.length = i.length then .err ⟨[(i, .Nomk .ManyMN)]⟩
      else
        match manyMNGo p (mn - 1) mx tail with
        | .ok r vs => .ok r (v :: vs)
        | .err e => .err e
        | .panic => .panic

/-- nom `many_m_n(mn, mx, p)`. -/
def manyMNP {α : Type} (mn mx : Nat) (p : Parser α) : Parser (List α) := fun i =>
  manyMNGo p mn mx i

/-- Loop of nom `count(p, n)`: exactly `n` repetitions, propagating the raw
inner error. -/
def countGo {α : Type} (p : Parser α) : Nat → Input → PResult (List α)
  | 0, i => .ok i []
  | n + 1, i =>
    match p i with
    | .err e => .err e
    | .panic => .panic
    | .ok tail v =>
      match countGo p n tail with
      | .ok r vs => .ok r (v :: vs)
      | .err e => .err e
      | .panic => .panic

/-- nom `count(p, n)`: on inner error, append a `Count` entry at the
original input. -/
def countP {α : Type} (p : Parser α) (n : Nat) : Parser (List α) := fun i =>
  match countGo p n i with
  | .err e => .err ⟨e.errors ++ [(i, .Nomk .Count)]⟩
  | r => r

/-! ## The data model of `src/http/mod.rs` -/

inductive Scheme
  | Http
  | Https
  deriving DecidableEq, Repr

inductive HostIP
  | Host (name : Input)
  | IP (octets : List Nat)
  deriving DecidableEq, Repr

structure URI where
  scheme : Scheme
  authority : Option (Input × Option Input)
  host : HostIP
  port : Option Nat
  path : Option (List Input)
  query : Option (List (Input × Input))
  fragment : Option Input
  deriving DecidableEq, Repr

/-- `impl From<&str> for Scheme`: lowercase the matched text, map the two
known schemes, and `panic!` (here: `none`) on anything else. -/
def Scheme.fromStr (value : Input) : Option Scheme :=
  if lowerStr value = "http://".toList then some .Http
  else if lowerStr value = "https://".toList then some .Https
  else none

/-! ## The parsers of `src/http/mod.rs` -/

/-- `scheme`: case-insensitive `HTTP://` / `HTTPS://`, then `Scheme::from`
(whose `panic!` branch is the `.panic` case). -/
def scheme : Parser Scheme := fun input =>
  match contextP "scheme"
      (alt2 (tagNoCaseP "HTTP://".toList) (tagNoCaseP "HTTPS://".toList)) input with
  | .ok next matched =>
    match Scheme.fromStr matched with
    | some s => .ok next s
    | none => .panic
  | .err e => .err e
  | .panic => .panic

/-- `authority`: `alphanumeric1`, optional `:`, optional `alphanumeric1`,
then a mandatory `@`. -/
def authority : Parser (Input × Option Input) :=
  contextP "authority"
    (terminatedP
      (separatedPairP alphanumeric1 (optP (tagP ":".toList)) (optP alphanumeric1))
      (tagP "@".toList))

/-- Join step of `host`: push the final label if non-empty, then join with `.`. -/
def hostJoin (res : List Input × Input) : HostIP :=
  let labels := if res.2.isEmpty then res.1 else res.1 ++ [res.2]
  HostIP.Host (List.intercalate ['.'] labels)

/-- `host`: either (label `.`)+ followed by an alphabetic final label, or a
single alphanumeric-hyphen label (degenerate branch with `take(0)`). -/
def host : Parser HostIP :=
  pmap
    (contextP "host"
      (alt2
        (pbind (many1P (terminatedP alphanumerichyphen1 (tagP ".".toList))) fun labels =>
          pmap alpha1 fun last => (labels, last))
        (pbind (manyMNP 1 1 alphanumerichyphen1) fun labels =>
          pmap (takeP 0) fun last => (labels, last))))
    hostJoin

/-- `n_to_m_digits(n, m)`: `many_m_n(n, m, one_of("0123456789"))` collected
into a string. -/
def n_to_m_digits (n m : Nat) : Parser Input :=
  manyMNP n m (oneOfP "0123456789".toList)

/-- Decimal value of a digit string (`str::parse` semantics on digit runs). -/
def digitsVal (s : Input) : Nat :=
  s.foldl (fun acc c => acc * 10 + (c.toNat - 48)) 0

/-- `str::parse::<u8>` on the captured digit run: succeeds iff the run is a
non-empty all-digit string whose value fits in 8 bits. -/
def parseU8 (s : Input) : Option Nat :=
  if s ≠ [] ∧ s.all isDigitChar ∧ digitsVal s ≤ 255 then some (digitsVal s) else none

/-- `str::parse::<u16>` on the captured digit run. -/
def parseU16 (s : Input) : Option Nat :=
  if s ≠ [] ∧ s.all isDigitChar ∧ digitsVal s ≤ 65535 then some (digitsVal s) else none

/-- `ip_num`: 1-3 digits, then `u8` conversion; conversion failure is an
error with an EMPTY `VerboseError` (outside the context wrapper). -/
def ip_num : Parser Nat := fun input =>
  match contextP "ip number" (n_to_m_digits 1 3) input with
  | .ok next s =>
    match parseU8 s with
    | some n => .ok next n
    | none => .err ⟨[]⟩
  | .err e => .err e
  | .panic => .panic

/-- Array-building step of `ip`: start from `[0,0,0,0]`, write the first
three octets by index, then write index 3. -/
def mkIpArray (xs : List Nat) (d : Nat) : List Nat :=
  ((xs.foldl (fun (acc : List Nat × Nat) v => (acc.1.set acc.2 v, acc.2 + 1))
      (([0, 0, 0, 0] : List Nat), 0)).1).set 3 d

/-- `ip`: exactly three `ip_num .` groups then a final `ip_num`. -/
def ip : Parser HostIP :=
  pmap
    (contextP "ip"
      (pbind (countP (terminatedP ip_num (tagP ".".toList)) 3) fun xs =>
        pmap ip_num fun d => (xs, d)))
    (fun r => HostIP.IP (mkIpArray r.1 r.2))

/-- `ip_or_host`: try the IP literal first, then the domain branch. -/
def ip_or_host : Parser HostIP :=
  contextP "ip or host" (alt2 ip host)

/-- `path`: `/`, then (segment `/`)*, then an optional final segment; an
empty final segment is dropped. -/
def path : Parser (List Input) :=
  contextP "path"
    (pbind (tagP "/".toList) fun _ =>
      pbind (many0P (terminatedP url_code_points (tagP "/".toList))) fun segs =>
        pmap (optP url_code_points) fun lastOpt =>
          match lastOpt with
          | some last => if last.isEmpty then segs else segs ++ [last]
          | none => segs)

/-- The repeated `&key=value` group inside `query_params`. -/
def qpPair : Parser (Input × Input) :=
  pbind (tagP "&".toList) fun _ =>
    pbind url_code_points fun k2 =>
      pbind (tagP "=".toList) fun _ =>
        pmap url_code_points fun v2 => (k2, v2)

/-- `query_params`: `?key=value` then `(&key=value)*`, pairs in input order. -/
def query_params : Parser (List (Input × Input)) :=
  contextP "query params"
    (pbind (tagP "?".toList) fun _ =>
      pbind url_code_points fun k =>
        pbind (tagP "=".toList) fun _ =>
          pbind url_code_points fun v =>
            pmap (many0P qpPair) (fun rest => (k, v) :: rest))

/-- `fragment`: `#` then a `url_code_points` run. -/
def fragment : Parser Input :=
  contextP "fragment"
    (pbind (tagP "#".toList) fun _ => pmap url_code_points fun fr => fr)

/-- `port`: `:` then 1-5 digits, then `u16` conversion; conversion failure is
an error with an empty `VerboseError`. -/
def port : Parser Nat := fun input =>
  match contextP "port"
      (pbind (tagP ":".toList) fun _ => pmap (n_to_m_digits 1 5) fun s => s) input with
  | .ok next s =>
    match parseU16 s with
    | some n => .ok next n
    | none => .err ⟨[]⟩
  | .err e => .err e
  | .panic => .panic

/-- `uri`: scheme, optional authority, host-or-ip, optional port, optional
path, optional query, optional fragment, in that fixed order. -/
def uri : Parser URI :=
  contextP "uri"
    (pbind scheme fun s =>
      pbind (optP authority) fun a =>
        pbind ip_or_host fun h =>
          pbind (optP port) fun po =>
            pbind (optP path) fun pa =>
              pbind (optP query_params) fun q =>
                pmap (optP fragment) fun f =>
                  URI.mk s a h po pa q f)

/-! ## Vocabulary used by the specification statements -/

/-- The first character of `t` (if any) fails the character test `q`;
runs of `q`-characters stop exactly at such a position. -/
def headStops (q : Char → Bool) : Input → Prop
  | [] => True
  | c :: _ => q c = false

/-- The character class of `alphanumerichyphen1`. -/
def isAnhChar (c : Char) : Bool := c == '-' || isAlphanumChar c

/-- The ten ASCII digits accepted by `n_to_m_digits`. -/
def digitChars : Input := "0123456789".toList

/-- A digit group acceptable as an IPv4 octet: 1-3 digits with value ≤ 255. -/
def GoodOctet (g : Input) : Prop :=
  g ≠ [] ∧ g.length ≤ 3 ∧ (∀ c ∈ g, c ∈ digitChars) ∧ digitsVal g ≤ 255

/-- A 3-digit group whose value overflows an octet (256-999). -/
def BadOctet (g : Input) : Prop :=
  g.length = 3 ∧ (∀ c ∈ g, c ∈ digitChars) ∧ 255 < digitsVal g

/-- A domain label: non-empty run of alphanumeric-or-hyphen characters. -/
def GoodLabel (l : Input) : Prop := l ≠ [] ∧ ∀ c ∈ l, isAnhChar c

/-- `l1.l2. ... lk.` — the dotted-label prefix consumed by `host`'s first
branch. -/
def dotLabels : List Input → Input
  | [] => []
  | l :: ls => l ++ '.' :: dotLabels ls

/-- `&k1=v1&k2=v2...` — the serialized form of the repeated query groups. -/
def ampJoin : List (Input × Input) → Input
  | [] => []
  | kv :: rest => '&' :: (kv.1 ++ '=' :: (kv.2 ++ ampJoin rest))

/-! ## Basic facts about runs of characters -/

theorem takeWhile_run (q : Char → Bool) (s t : Input) (hs : ∀ c ∈ s, q c)
    (ht : headStops q t) : (s ++ t).takeWhile q = s := by
  induction s with
  | nil =>
    cases t with
    | nil => rfl
    | cons c u =>
      simp only [headStops] at ht
      simp [List.takeWhile_cons, ht]
  | cons c s ih =>
    have hc : q c = true := hs c (by simp)
    simp only [List.cons_append, List.takeWhile_cons, hc, if_true]
    rw [ih (fun d hd => hs d (by simp [hd]))]

theorem drop_takeWhile_len (q : Char → Bool) :
    ∀ l : Input, l.drop (l.takeWhile q).length = l.dropWhile q := by
  intro l
  induction l with
  | nil => rfl
  | cons c l ih => cases hq : q c <;> simp [List.takeWhile_cons, List.dropWhile_cons, hq, ih]

theorem headStops_dropWhile (q : Char → Bool) (l : Input) :
    headStops q (l.dropWhile q) := by
  induction l with
  | nil => trivial
  | cons c l ih =>
    rw [List.dropWhile_cons]
    cases hq : q c
    · simp only [Bool.false_eq_true, if_false]
      exact hq
    · simp only [if_true]
      exact ih

theorem mem_takeWhile (q : Char → Bool) :
    ∀ (l : Input), ∀ c ∈ l.takeWhile q, q c := by
  intro l
  induction l with
  | nil => intro c hc; cases hc
  | cons d l ih =>
    intro c hc
    cases hq : q d with
    | false => rw [List.takeWhile_cons, hq] at hc; cases hc
    | true =>
      rw [List.takeWhile_cons, hq] at hc
      simp only [if_true] at hc
      rcases List.mem_cons.mp hc with h1 | h1
      · rw [h1]; exact hq
      · exact ih c h1

/-! ## Basic facts about the primitive recognizers -/

theorem sap1_run (pred : Char → Bool) (k : NomKind) (q : Char → Bool)
    (hq : ∀ c, pred c = !(q c)) (s t : Input) (hs : ∀ c ∈ s, q c)
    (ht : headStops q t) (hne : s ≠ []) :
    splitAtPosition1Complete pred k (s ++ t) = .ok t s := by
  have hfun : (fun c => !(pred c)) = q := by funext c; rw [hq c, Bool.not_not]
  unfold splitAtPosition1Complete
  rw [hfun, takeWhile_run q s t hs ht]
  rw [if_neg (by simpa using hne)]
  rw [List.drop_left]

theorem sap1_stop (pred : Char → Bool) (k : NomKind) (q : Char → Bool)
    (hq : ∀ c, pred c = !(q c)) (i : Input) (hi : headStops q i) :
    splitAtPosition1Complete pred k i = .err ⟨[(i, .Nomk k)]⟩ := by
  have hfun : (fun c => !(pred c)) = q := by funext c; rw [hq c, Bool.not_not]
  unfold splitAtPosition1Complete
  rw [hfun]
  cases i with
  | nil => rfl
  | cons c u =>
    simp only [headStops] at hi
    rw [List.takeWhile_cons, hi]
    rfl

theorem sap1_inv (pred : Char → Bool) (k : NomKind) (q : Char → Bool)
    (hq : ∀ c, pred c = !(q c)) (i r v : Input)
    (h : splitAtPosition1Complete pred k i = .ok r v) :
    i = v ++ r ∧ v ≠ [] ∧ (∀ c ∈ v, q c) ∧ headStops q r := by
  have hfun : (fun c => !(pred c)) = q := by funext c; rw [hq c, Bool.not_not]
  unfold splitAtPosition1Complete at h
  rw [hfun] at h
  by_cases he : (i.takeWhile q).isEmpty
  · rw [if_pos he] at h; cases h
  · rw [if_neg he] at h
    injection h with h1 h2
    subst h1; subst h2
    refine ⟨?_, by simpa using he, mem_takeWhile q i, ?_⟩
    · rw [drop_takeWhile_len]
      exact (List.takeWhile_append_dropWhile (p := q) (l := i)).symm
    · rw [drop_takeWhile_len]
      exact headStops_dropWhile q i

theorem sapC_run (pred : Char → Bool) (q : Char → Bool)
    (hq : ∀ c, pred c = !(q c)) (s t : Input) (hs : ∀ c ∈ s, q c)
    (ht : headStops q t) :
    splitAtPositionComplete pred (s ++ t) = .ok t s := by
  have hfun : (fun c => !(pred c)) = q := by funext c; rw [hq c, Bool.not_not]
  unfold splitAtPositionComplete
  rw [hfun, takeWhile_run q s t hs ht, List.drop_left]

/-- The split predicate of `alphanumerichyphen1` is the negation of `isAnhChar`. -/
theorem anh_pred (c : Char) : (c != '-' && !(isAlphanumChar c)) = !(isAnhChar c) := by
  simp [isAnhChar, bne, Bool.not_or]

/-- The split predicate of `url_code_points` is the negation of `isUrlChar`. -/
theorem url_pred (c : Char) : (c != '-' && !(isAlphanumChar c) && c != '.') = !(isUrlChar c) := by
  simp [isUrlChar]

theorem alphanumeric1_run (s t : Input) (hs : ∀ c ∈ s, isAlphanumChar c)
    (ht : headStops isAlphanumChar t) (hne : s ≠ []) :
    alphanumeric1 (s ++ t) = .ok t s :=
  sap1_run _ _ isAlphanumChar (fun _ => rfl) s t hs ht hne

theorem alphanumeric1_stop (i : Input) (hi : headStops isAlphanumChar i) :
    alphanumeric1 i = .err ⟨[(i, .Nomk .AlphaNumeric)]⟩ :=
  sap1_stop _ _ isAlphanumChar (fun _ => rfl) i hi

theorem alpha1_run (s t : Input) (hs : ∀ c ∈ s, isAlphaChar c)
    (ht : headStops isAlphaChar t) (hne : s ≠ []) :
    alpha1 (s ++ t) = .ok t s :=
  sap1_run _ _ isAlphaChar (fun _ => rfl) s t hs ht hne

theorem anh1_run (s t : Input) (hs : ∀ c ∈ s, isAnhChar c)
    (ht : headStops isAnhChar t) (hne : s ≠ []) :
    alphanumerichyphen1 (s ++ t) = .ok t s :=
  sap1_run _ _ isAnhChar anh_pred s t hs ht hne

theorem ucp_run (s t : Input) (hs : ∀ c ∈ s, isUrlChar c)
    (ht : headStops isUrlChar t) :
    url_code_points (s ++ t) = .ok t s :=
  sapC_run _ isUrlChar url_pred s t hs ht

/-! ## Basic facts about `tag`, `one_of` and friends -/

theorem tagP_run (t r : Input) : tagP t (t ++ r) = .ok r t := by
  unfold tagP
  rw [if_pos ( List.isPrefixOf_iff_prefix.mpr ( List.prefix_append t r))]
  rw [List.drop_left]

theorem tagP_single_run (c : Char) (r : Input) : tagP [c] (c :: r) = .ok r [c] :=
  tagP_run [c] r

theorem tagP_single_err (c : Char) (i : Input) (h : i.head? ≠ some c) :
    tagP [c] i = .err ⟨[(i, .Nomk .Tag)]⟩ := by
  unfold tagP
  cases i with
  | nil => rfl
  | cons d u =>
    simp only [List.head?_cons, ne_eq, Option.some.injEq] at h
    rw [if_neg]
    intro hp
    rcases List.isPrefixOf_iff_prefix.mp hp with ⟨w, hw⟩
    injection hw with h1 _
    exact h h1.symm

theorem tagP_inv (t i r v : Input) (h : tagP t i = .ok r v) :
    v = t ∧ i = t ++ r := by
  unfold tagP at h
  by_cases hp : t.isPrefixOf i
  · rw [if_pos hp] at h
    injection h with h1 h2
    rcases List.isPrefixOf_iff_prefix.mp hp with ⟨w, hw⟩
    subst hw
    rw [List.drop_left] at h1
    exact ⟨h2.symm, by rw [h1]⟩
  · rw [if_neg hp] at h; cases h

theorem oneOfP_ok (cs : Input) (c : Char) (r : Input) (h : cs.contains c) :
    oneOfP cs (c :: r) = .ok r c := by
  have he : oneOfP cs (c :: r) =
      if cs.contains c then .ok r c else .err ⟨[(c :: r, .Nomk .OneOf)]⟩ := rfl
  rw [he, if_pos h]

theorem oneOfP_inv (cs i r : Input) (c : Char) (h : oneOfP cs i = .ok r c) :
    i = c :: r ∧ cs.contains c = true := by
  cases i with
  | nil => exact PResult.noConfusion h
  | cons d u =>
    have he : oneOfP cs (d :: u) =
        if cs.contains d then .ok u d else .err ⟨[(d :: u, .Nomk .OneOf)]⟩ := rfl
    rw [he] at h
    by_cases hc : cs.contains d
    · rw [if_pos hc] at h
      injection h with h1 h2
      subst h1; subst h2; exact ⟨rfl, hc⟩
    · rw [if_neg hc] at h
      exact PResult.noConfusion h

theorem takeP_zero (i : Input) : takeP 0 i = .ok i [] := by
  unfold takeP
  rw [if_pos (Nat.zero_le _)]
  rfl

/-! ## The digit character class -/

theorem digit_isDigit (c : Char) (h : c ∈ digitChars) : isDigitChar c := by
  have hd : digitChars = ['0', '1', '2', '3', '4', '5', '6', '7', '8', '9'] := rfl
  rw [hd] at h
  simp only [List.mem_cons, List.not_mem_nil, or_false] at h
  rcases h with rfl | rfl | rfl | rfl | rfl | rfl | rfl | rfl | rfl | rfl <;> decide

theorem digit_contains (c : Char) (h : c ∈ digitChars) : digitChars.contains c := by
  simpa using h

theorem not_digit_contains (c : Char) (h : isDigitChar c = false) :
    digitChars.contains c = false := by
  cases hc : digitChars.contains c
  · rfl
  · exact absurd (digit_isDigit c (by simpa using hc)) (by simp [h])

/-! ## Propagation through the wrapping combinators -/

theorem pbind_ok {α β : Type} (p : Parser α) (f : α → Parser β) (i r : Input) (v : α)
    (h : p i = .ok r v) : pbind p f i = f v r := by
  unfold pbind; rw [h]

theorem pbind_err {α β : Type} (p : Parser α) (f : α → Parser β) (i : Input)
    (e : VerboseError) (h : p i = .err e) : pbind p f i = .err e := by
  unfold pbind; rw [h]

theorem pmap_ok {α β : Type} (p : Parser α) (f : α → β) (i r : Input) (v : α)
    (h : p i = .ok r v) : pmap p f i = .ok r (f v) := by
  unfold pmap; rw [h]

theorem pmap_err {α β : Type} (p : Parser α) (f : α → β) (i : Input)
    (e : VerboseError) (h : p i = .err e) : pmap p f i = .err e := by
  unfold pmap; rw [h]

theorem optP_some {α : Type} (p : Parser α) (i r : Input) (v : α)
    (h : p i = .ok r v) : optP p i = .ok r (some v) := by
  unfold optP; rw [h]

theorem optP_none {α : Type} (p : Parser α) (i : Input) (e : VerboseError)
    (h : p i = .err e) : optP p i = .ok i none := by
  unfold optP; rw [h]

theorem contextP_ok {α : Type} (label : String) (p : Parser α) (i r : Input) (v : α)
    (h : p i = .ok r v) : contextP label p i = .ok r v := by
  unfold contextP; rw [h]

theorem contextP_err {α : Type} (label : String) (p : Parser α) (i : Input)
    (e : VerboseError) (h : p i = .err e) :
    contextP label p i = .err ⟨e.errors ++ [(i, .Context label)]⟩ := by
  unfold contextP; rw [h]

theorem alt2_ok1 {α : Type} (p q : Parser α) (i r : Input) (v : α)
    (h : p i = .ok r v) : alt2 p q i = .ok r v := by
  unfold alt2; rw [h]

theorem alt2_ok2 {α : Type} (p q : Parser α) (i r : Input) (v : α) (e1 : VerboseError)
    (h1 : p i = .err e1) (h2 : q i = .ok r v) : alt2 p q i = .ok r v := by
  unfold alt2; rw [h1, h2]

theorem alt2_err {α : Type} (p q : Parser α) (i : Input) (e1 e2 : VerboseError)
    (h1 : p i = .err e1) (h2 : q i = .err e2) :
    alt2 p q i = .err ⟨e2.errors ++ [(i, .Nomk .Alt)]⟩ := by
  unfold alt2; rw [h1, h2]

theorem contextP_inv_ok {α : Type} (label : String) (p : Parser α) (i r : Input) (v : α)
    (h : contextP label p i = .ok r v) : p i = .ok r v := by
  cases hp : p i with
  | ok r2 v2 =>
    rw [contextP_ok label p i r2 v2 hp] at h
    rw [h]
  | err e =>
    rw [contextP_err label p i e hp] at h
    exact PResult.noConfusion h
  | panic =>
    have : contextP label p i = .panic := by unfold contextP; rw [hp]
    rw [this] at h
    exact PResult.noConfusion h

theorem pbind_inv {α β : Type} (p : Parser α) (f : α → Parser β) (i r : Input) (v : β)
    (h : pbind p f i = .ok r v) :
    ∃ r1 v1, p i = .ok r1 v1 ∧ f v1 r1 = .ok r v := by
  cases hp : p i with
  | ok r1 v1 => exact ⟨r1, v1, rfl, by rw [pbind_ok p f i r1 v1 hp] at h; exact h⟩
  | err e => rw [pbind_err p f i e hp] at h; exact PResult.noConfusion h
  | panic =>
    have : pbind p f i = .panic := by unfold pbind; rw [hp]
    rw [this] at h
    exact PResult.noConfusion h

theorem pmap_inv {α β : Type} (p : Parser α) (f : α → β) (i r : Input) (v : β)
    (h : pmap p f i = .ok r v) :
    ∃ v1, p i = .ok r v1 ∧ v = f v1 := by
  cases hp : p i with
  | ok r1 v1 =>
    rw [pmap_ok p f i r1 v1 hp] at h
    injection h with h1 h2
    subst h1
    exact ⟨v1, rfl, h2.symm⟩
  | err e => rw [pmap_err p f i e hp] at h; exact PResult.noConfusion h
  | panic =>
    have : pmap p f i = .panic := by unfold pmap; rw [hp]
    rw [this] at h
    exact PResult.noConfusion h

theorem optP_inv {α : Type} (p : Parser α) (i r : Input) (v : Option α)
    (h : optP p i = .ok r v) :
    (v = none ∧ r = i) ∨ (∃ a, v = some a ∧ p i = .ok r a) := by
  cases hp : p i with
  | ok r1 v1 =>
    rw [optP_some p i r1 v1 hp] at h
    injection h with h1 h2
    subst h1
    exact Or.inr ⟨v1, h2.symm, rfl⟩
  | err e =>
    rw [optP_none p i e hp] at h
    injection h with h1 h2
    exact Or.inl ⟨h2.symm, h1.symm⟩
  | panic =>
    have : optP p i = .panic := by unfold optP; rw [hp]
    rw [this] at h
    exact PResult.noConfusion h

theorem alt2_inv_ok {α : Type} (p q : Parser α) (i r : Input) (v : α)
    (h : alt2 p q i = .ok r v) : p i = .ok r v ∨ q i = .ok r v := by
  cases hp : p i with
  | ok r1 v1 => rw [alt2_ok1 p q i r1 v1 hp] at h; exact Or.inl h
  | err e1 =>
    cases hq : q i with
    | ok r2 v2 => rw [alt2_ok2 p q i r2 v2 e1 hp hq] at h; exact Or.inr h
    | err e2 => rw [alt2_err p q i e1 e2 hp hq] at h; exact PResult.noConfusion h
    | panic =>
      have : alt2 p q i = .panic := by unfold alt2; rw [hp, hq]
      rw [this] at h
      exact PResult.noConfusion h
  | panic =>
    have : alt2 p q i = .panic := by unfold alt2; rw [hp]
    rw [this] at h
    exact PResult.noConfusion h

/-! ## `many_m_n` over the digit alternative -/

theorem manyMN_digits_run :
    ∀ (s : Input) (mn mx : Nat) (t : Input),
      (∀ c ∈ s, c ∈ digitChars) → mn ≤ s.length →
      (s.length = mx ∨ (s.length ≤ mx ∧ headStops isDigitChar t)) →
      manyMNGo (oneOfP digitChars) mn mx (s ++ t) = .ok t s := by
  intro s
  induction s with
  | nil =>
    intro mn mx t _ hmn hstop
    have hmn0 : mn = 0 := Nat.le_zero.mp hmn
    subst hmn0
    rcases hstop with hmx | ⟨_, ht⟩
    · rw [← hmx]; rfl
    · cases mx with
      | zero => rfl
      | succ m =>
        cases t with
        | nil => rfl
        | cons c u =>
          simp only [headStops] at ht
          have hc : digitChars.contains c = false := not_digit_contains c ht
          have he : oneOfP digitChars (c :: u) =
              .err ⟨[(c :: u, .Nomk .OneOf)]⟩ := by
            have h0 : oneOfP digitChars (c :: u) =
                if digitChars.contains c then .ok u c
                else .err ⟨[(c :: u, .Nomk .OneOf)]⟩ := rfl
            rw [h0, hc]; rfl
          simp only [List.nil_append, manyMNGo, he]
          rfl
  | cons c s ih =>
    intro mn mx t hmem hmn hstop
    have hmx : ∃ m, mx = m + 1 := by
      rcases hstop with hmx | ⟨hle, _⟩
      · exact ⟨s.length, hmx.symm⟩
      · cases mx with
        | zero => simp at hle
        | succ m => exact ⟨m, rfl⟩
    rcases hmx with ⟨m, rfl⟩
    have hc : digitChars.contains c := digit_contains c (hmem c (by simp))
    have hone : oneOfP digitChars (c :: (s ++ t)) = .ok (s ++ t) c :=
      oneOfP_ok digitChars c (s ++ t) hc
    have hlen : ¬ ((s ++ t).length = (c :: (s ++ t)).length) := by simp
    have ihh : manyMNGo (oneOfP digitChars) (mn - 1) m (s ++ t) = .ok t s := by
      apply ih (mn - 1) m t (fun d hd => hmem d (by simp [hd]))
      · simp only [List.length_cons] at hmn; omega
      · rcases hstop with hmx | ⟨hle, ht⟩
        · left; simp only [List.length_cons] at hmx; omega
        · right; exact ⟨by simp only [List.length_cons] at hle; omega, ht⟩
    simp only [List.cons_append, manyMNGo, hone, if_neg hlen, ihh]

theorem manyMN_digits_inv :
    ∀ (mx mn : Nat) (i r : Input) (vs : List Char),
      manyMNGo (oneOfP digitChars) mn mx i = .ok r vs →
      i = vs ++ r ∧ (∀ c ∈ vs, c ∈ digitChars) ∧ vs.length ≤ mx ∧
        (mn ≤ vs.length ∨ vs.length = mx) := by
  intro mx
  induction mx with
  | zero =>
    intro mn i r vs h
    have he : manyMNGo (oneOfP digitChars) mn 0 i = .ok i [] := rfl
    rw [he] at h
    injection h with h1 h2
    subst h1
    refine ⟨by simp [← h2], by simp [← h2], by simp [← h2], Or.inr (by simp [← h2])⟩
  | succ m ih =>
    intro mn i r vs h
    cases hp : oneOfP digitChars i with
    | ok tail v =>
      simp only [manyMNGo, hp] at h
      rcases oneOfP_inv digitChars i tail v hp with ⟨hi, hcont⟩
      by_cases hl : tail.length = i.length
      · rw [if_pos hl] at h; exact PResult.noConfusion h
      · rw [if_neg hl] at h
        cases hrec : manyMNGo (oneOfP digitChars) (mn - 1) m tail with
        | ok r2 vs2 =>
          simp only [hrec] at h
          injection h with h1 h2
          rcases ih (mn - 1) tail r2 vs2 hrec with ⟨ht2, hmem, hlen, hcase⟩
          have hv : v ∈ digitChars := by simpa using hcont
          refine ⟨by rw [hi, ht2, ← h1, ← h2]; rfl, ?_, ?_, ?_⟩
          · intro d hd
            rw [← h2] at hd
            rcases List.mem_cons.mp hd with h3 | h3
            · rw [h3]; exact hv
            · exact hmem d h3
          · rw [← h2]; simp only [List.length_cons]; omega
          · rw [← h2]; simp only [List.length_cons]; omega
        | err e => rw [hrec] at h; exact PResult.noConfusion h
        | panic => rw [hrec] at h; exact PResult.noConfusion h
    | err e =>
      simp only [manyMNGo, hp] at h
      by_cases hmn : 0 < mn
      · rw [if_pos hmn] at h; exact PResult.noConfusion h
      · rw [if_neg hmn] at h
        injection h with h1 h2
        subst h1
        refine ⟨by simp [← h2], by simp [← h2], by simp [← h2], Or.inl (by simp [← h2]; omega)⟩
    | panic =>
      simp only [manyMNGo, hp] at h
      exact PResult.noConfusion h

/-! ## `ip_num`, `ip` and the octet grammar -/

theorem headStops_cons (q : Char → Bool) (c : Char) (u : Input) (h : q c = false) :
    headStops q (c :: u) := h

theorem headStops_nil (q : Char → Bool) : headStops q [] := trivial

theorem all_digits (s : Input) (hmem : ∀ c ∈ s, c ∈ digitChars) : s.all isDigitChar :=
  List.all_eq_true.mpr fun c hc => digit_isDigit c (hmem c hc)

theorem parseU8_some (s : Input) (hne : s ≠ []) (hall : s.all isDigitChar)
    (hle : digitsVal s ≤ 255) : parseU8 s = some (digitsVal s) := by
  unfold parseU8; rw [if_pos ⟨hne, hall, hle⟩]

theorem parseU8_overflow (s : Input) (hgt : 255 < digitsVal s) : parseU8 s = none := by
  unfold parseU8
  rw [if_neg]
  rintro ⟨_, _, h⟩
  omega

theorem parseU8_inv (s : Input) (n : Nat) (h : parseU8 s = some n) :
    n = digitsVal s ∧ s ≠ [] ∧ s.all isDigitChar ∧ digitsVal s ≤ 255 := by
  unfold parseU8 at h
  by_cases hc : s ≠ [] ∧ s.all isDigitChar ∧ digitsVal s ≤ 255
  · rw [if_pos hc] at h
    injection h with h1
    exact ⟨h1.symm, hc.1, hc.2.1, hc.2.2⟩
  · rw [if_neg hc] at h; exact Option.noConfusion h

theorem parseU16_some (s : Input) (hne : s ≠ []) (hall : s.all isDigitChar)
    (hle : digitsVal s ≤ 65535) : parseU16 s = some (digitsVal s) := by
  unfold parseU16; rw [if_pos ⟨hne, hall, hle⟩]

theorem parseU16_overflow (s : Input) (hgt : 65535 < digitsVal s) : parseU16 s = none := by
  unfold parseU16
  rw [if_neg]
  rintro ⟨_, _, h⟩
  omega

theorem parseU16_inv (s : Input) (n : Nat) (h : parseU16 s = some n) :
    n = digitsVal s ∧ s ≠ [] ∧ s.all isDigitChar ∧ digitsVal s ≤ 65535 := by
  unfold parseU16 at h
  by_cases hc : s ≠ [] ∧ s.all isDigitChar ∧ digitsVal s ≤ 65535
  · rw [if_pos hc] at h
    injection h with h1
    exact ⟨h1.symm, hc.1, hc.2.1, hc.2.2⟩
  · rw [if_neg hc] at h; exact Option.noConfusion h

theorem n_to_m_digits_run (n m : Nat) (s t : Input) (hmem : ∀ c ∈ s, c ∈ digitChars)
    (hmn : n ≤ s.length)
    (hstop : s.length = m ∨ (s.length ≤ m ∧ headStops isDigitChar t)) :
    n_to_m_digits n m (s ++ t) = .ok t s :=
  manyMN_digits_run s n m t hmem hmn hstop

theorem ip_num_run (s t : Input) (hne : s ≠ []) (hmem : ∀ c ∈ s, c ∈ digitChars)
    (hstop : s.length = 3 ∨ (s.length ≤ 3 ∧ headStops isDigitChar t)) :
    ip_num (s ++ t) = match parseU8 s with
      | some n => .ok t n
      | none => .err ⟨[]⟩ := by
  have h1 : n_to_m_digits 1 3 (s ++ t) = .ok t s :=
    n_to_m_digits_run 1 3 s t hmem (List.length_pos.mpr hne) hstop
  have hctx : contextP "ip number" (n_to_m_digits 1 3) (s ++ t) = .ok t s :=
    contextP_ok _ _ _ _ _ h1
  simp only [ip_num, hctx]

theorem ip_num_ok (s t : Input) (hne : s ≠ []) (hmem : ∀ c ∈ s, c ∈ digitChars)
    (hstop : s.length = 3 ∨ (s.length ≤ 3 ∧ headStops isDigitChar t))
    (hle : digitsVal s ≤ 255) : ip_num (s ++ t) = .ok t (digitsVal s) := by
  rw [ip_num_run s t hne hmem hstop, parseU8_some s hne (all_digits s hmem) hle]

theorem ip_num_overflow (s t : Input) (hne : s ≠ []) (hmem : ∀ c ∈ s, c ∈ digitChars)
    (hstop : s.length = 3 ∨ (s.length ≤ 3 ∧ headStops isDigitChar t))
    (hgt : 255 < digitsVal s) : ip_num (s ++ t) = .err ⟨[]⟩ := by
  rw [ip_num_run s t hne hmem hstop, parseU8_overflow s hgt]

theorem ipdot_ok (g rest : Input) (hg : GoodOctet g) :
    terminatedP ip_num (tagP ".".toList) (g ++ '.' :: rest) = .ok rest (digitsVal g) := by
  obtain ⟨hne, hlen, hmem, hle⟩ := hg
  have h1 : ip_num (g ++ '.' :: rest) = .ok ('.' :: rest) (digitsVal g) :=
    ip_num_ok g ('.' :: rest) hne hmem
      (Or.inr ⟨hlen, headStops_cons _ _ _ (by decide)⟩) hle
  have h2 : tagP ".".toList ('.' :: rest) = .ok rest ".".toList :=
    tagP_single_run '.' rest
  simp only [terminatedP, pbind, pmap, h1, h2]

theorem ipdot_overflow (g u : Input) (hb : BadOctet g) :
    terminatedP ip_num (tagP ".".toList) (g ++ u) = .err ⟨[]⟩ := by
  obtain ⟨hlen, hmem, hgt⟩ := hb
  have h1 : ip_num (g ++ u) = .err ⟨[]⟩ :=
    ip_num_overflow g u (by intro hc; rw [hc] at hlen; simp at hlen) hmem (Or.inl hlen) hgt
  simp only [terminatedP, pbind, h1]

theorem ipdot_nodot (g : Input) (hg : GoodOctet g) :
    terminatedP ip_num (tagP ".".toList) g = .err ⟨[([], .Nomk .Tag)]⟩ := by
  obtain ⟨hne, hlen, hmem, hle⟩ := hg
  have h1 : ip_num (g ++ []) = .ok [] (digitsVal g) :=
    ip_num_ok g [] hne hmem (Or.inr ⟨hlen, headStops_nil _⟩) hle
  rw [List.append_nil] at h1
  have h2 : tagP ".".toList ([] : Input) = .err ⟨[([], .Nomk .Tag)]⟩ := rfl
  simp only [terminatedP, pbind, pmap, h1, h2]

theorem ip_of_count_err (i : Input) (e : VerboseError)
    (h : countGo (terminatedP ip_num (tagP ".".toList)) 3 i = .err e) :
    ip i = .err ⟨(e.errors ++ [(i, .Nomk .Count)]) ++ [(i, .Context "ip")]⟩ := by
  simp only [ip, pmap, contextP, pbind, countP, h]

theorem ip_run (g1 g2 g3 g4 rest : Input)
    (h1 : GoodOctet g1) (h2 : GoodOctet g2) (h3 : GoodOctet g3)
    (h4ne : g4 ≠ []) (h4mem : ∀ c ∈ g4, c ∈ digitChars)
    (h4stop : g4.length = 3 ∨ (g4.length ≤ 3 ∧ headStops isDigitChar rest)) :
    ip (g1 ++ '.' :: (g2 ++ '.' :: (g3 ++ '.' :: (g4 ++ rest)))) =
      match parseU8 g4 with
      | some n =>
        .ok rest (HostIP.IP (mkIpArray [digitsVal g1, digitsVal g2, digitsVal g3] n))
      | none =>
        .err ⟨[((g1 ++ '.' :: (g2 ++ '.' :: (g3 ++ '.' :: (g4 ++ rest)))), .Context "ip")]⟩ := by
  have e1 := ipdot_ok g1 (g2 ++ '.' :: (g3 ++ '.' :: (g4 ++ rest))) h1
  have e2 := ipdot_ok g2 (g3 ++ '.' :: (g4 ++ rest)) h2
  have e3 := ipdot_ok g3 (g4 ++ rest) h3
  have hcount : countGo (terminatedP ip_num (tagP ".".toList)) 3
      (g1 ++ '.' :: (g2 ++ '.' :: (g3 ++ '.' :: (g4 ++ rest)))) =
      .ok (g4 ++ rest) [digitsVal g1, digitsVal g2, digitsVal g3] := by
    simp only [countGo, e1, e2, e3]
  have hcountP : countP (terminatedP ip_num (tagP ".".toList)) 3
      (g1 ++ '.' :: (g2 ++ '.' :: (g3 ++ '.' :: (g4 ++ rest)))) =
      .ok (g4 ++ rest) [digitsVal g1, digitsVal g2, digitsVal g3] := by
    simp only [countP, hcount]
  have hip := ip_num_run g4 rest h4ne h4mem h4stop
  cases hp : parseU8 g4 with
  | some n =>
    rw [hp] at hip
    simp only [ip, pmap, contextP, pbind, hcountP, hip]
  | none =>
    rw [hp] at hip
    simp only [ip, pmap, contextP, pbind, hcountP, hip, List.nil_append]

theorem mkIpArray_eval (a b c d : Nat) : mkIpArray [a, b, c] d = [a, b, c, d] := rfl

theorem countGo_bad1 (g u : Input) (hb : BadOctet g) :
    countGo (terminatedP ip_num (tagP ".".toList)) 3 (g ++ u) = .err ⟨[]⟩ := by
  simp only [countGo, ipdot_overflow g u hb]

theorem countGo_bad2 (g1 g u : Input) (h1 : GoodOctet g1) (hb : BadOctet g) :
    countGo (terminatedP ip_num (tagP ".".toList)) 3 (g1 ++ '.' :: (g ++ u)) = .err ⟨[]⟩ := by
  simp only [countGo, ipdot_ok g1 (g ++ u) h1, ipdot_overflow g u hb]

theorem countGo_bad3 (g1 g2 g u : Input) (h1 : GoodOctet g1) (h2 : GoodOctet g2)
    (hb : BadOctet g) :
    countGo (terminatedP ip_num (tagP ".".toList)) 3
      (g1 ++ '.' :: (g2 ++ '.' :: (g ++ u))) = .err ⟨[]⟩ := by
  simp only [countGo, ipdot_ok g1 (g2 ++ '.' :: (g ++ u)) h1,
    ipdot_ok g2 (g ++ u) h2, ipdot_overflow g u hb]

theorem countGo_short1 (g1 : Input) (h1 : GoodOctet g1) :
    countGo (terminatedP ip_num (tagP ".".toList)) 3 g1 = .err ⟨[([], .Nomk .Tag)]⟩ := by
  simp only [countGo, ipdot_nodot g1 h1]

theorem countGo_short2 (g1 g2 : Input) (h1 : GoodOctet g1) (h2 : GoodOctet g2) :
    countGo (terminatedP ip_num (tagP ".".toList)) 3 (g1 ++ '.' :: g2) =
      .err ⟨[([], .Nomk .Tag)]⟩ := by
  simp only [countGo, ipdot_ok g1 g2 h1, ipdot_nodot g2 h2]

theorem countGo_short3 (g1 g2 g3 : Input) (h1 : GoodOctet g1) (h2 : GoodOctet g2)
    (h3 : GoodOctet g3) :
    countGo (terminatedP ip_num (tagP ".".toList)) 3 (g1 ++ '.' :: (g2 ++ '.' :: g3)) =
      .err ⟨[([], .Nomk .Tag)]⟩ := by
  simp only [countGo, ipdot_ok g1 (g2 ++ '.' :: g3) h1, ipdot_ok g2 g3 h2,
    ipdot_nodot g3 h3]

/-- C2: The IPv4 octet parser is greedy up to 3 digits and does not retry a
shorter match: on `"192.168.0.1444:8080"` the fourth octet is read as the
first three digits `144` (range-valid), `ip` succeeds, and `"4:8080"` is left
unconsumed. -/
theorem c2_ip_greedy_octet :
    ip "192.168.0.1444:8080".toList =
      .ok "4:8080".toList (HostIP.IP [192, 168, 0, 144]) := by rfl

/-- C3: every dotted-decimal string of exactly four 1-3 digit groups with
values ≤ 255 parses to exactly those four bytes with nothing left; a 3-digit
group overflowing 255 at any of the four octet positions fails the whole
parse; and inputs of one, two or three dot-separated groups fail. -/
theorem c3_ip_dotted_quad :
    (∀ g1 g2 g3 g4, GoodOctet g1 → GoodOctet g2 → GoodOctet g3 → GoodOctet g4 →
      ip (g1 ++ '.' :: (g2 ++ '.' :: (g3 ++ '.' :: g4))) =
        .ok [] (.IP [digitsVal g1, digitsVal g2, digitsVal g3, digitsVal g4])) ∧
    (∀ g u, BadOctet g → ∃ e, ip (g ++ u) = .err e) ∧
    (∀ g1 g u, GoodOctet g1 → BadOctet g → ∃ e, ip (g1 ++ '.' :: (g ++ u)) = .err e) ∧
    (∀ g1 g2 g u, GoodOctet g1 → GoodOctet g2 → BadOctet g →
      ∃ e, ip (g1 ++ '.' :: (g2 ++ '.' :: (g ++ u))) = .err e) ∧
    (∀ g1 g2 g3 g u, GoodOctet g1 → GoodOctet g2 → GoodOctet g3 → BadOctet g →
      ∃ e, ip (g1 ++ '.' :: (g2 ++ '.' :: (g3 ++ '.' :: (g ++ u)))) = .err e) ∧
    (∀ g1, GoodOctet g1 → ∃ e, ip g1 = .err e) ∧
    (∀ g1 g2, GoodOctet g1 → GoodOctet g2 → ∃ e, ip (g1 ++ '.' :: g2) = .err e) ∧
    (∀ g1 g2 g3, GoodOctet g1 → GoodOctet g2 → GoodOctet g3 →
      ∃ e, ip (g1 ++ '.' :: (g2 ++ '.' :: g3)) = .err e) := by
  refine ⟨?_, ?_, ?_, ?_, ?_, ?_, ?_, ?_⟩
  · intro g1 g2 g3 g4 h1 h2 h3 h4
    obtain ⟨h4ne, h4len, h4mem, h4le⟩ := h4
    have hrun := ip_run g1 g2 g3 g4 [] h1 h2 h3 h4ne h4mem
      (Or.inr ⟨h4len, headStops_nil _⟩)
    rw [List.append_nil] at hrun
    have hps := parseU8_some g4 h4ne (all_digits g4 h4mem) h4le
    simp only [hps, mkIpArray_eval] at hrun
    exact hrun
  · intro g u hb
    exact ⟨_, ip_of_count_err _ _ (countGo_bad1 g u hb)⟩
  · intro g1 g u h1 hb
    exact ⟨_, ip_of_count_err _ _ (countGo_bad2 g1 g u h1 hb)⟩
  · intro g1 g2 g u h1 h2 hb
    exact ⟨_, ip_of_count_err _ _ (countGo_bad3 g1 g2 g u h1 h2 hb)⟩
  · intro g1 g2 g3 g u h1 h2 h3 hb
    obtain ⟨hlen, hmem, hgt⟩ := hb
    have hrun := ip_run g1 g2 g3 g u h1 h2 h3
      (by intro hc; rw [hc] at hlen; simp at hlen) hmem (Or.inl hlen)
    rw [parseU8_overflow g hgt] at hrun
    exact ⟨_, hrun⟩
  · intro g1 h1
    exact ⟨_, ip_of_count_err _ _ (countGo_short1 g1 h1)⟩
  · intro g1 g2 h1 h2
    exact ⟨_, ip_of_count_err _ _ (countGo_short2 g1 g2 h1 h2)⟩
  · intro g1 g2 g3 h1 h2 h3
    exact ⟨_, ip_of_count_err _ _ (countGo_short3 g1 g2 g3 h1 h2 h3)⟩

/-- Witness for C3 at concrete octets: `"1.22.233.0"` parses to `[1,22,233,0]`,
`"999.1.1.1"`-style overflow octets fail at each position, and one-, two- and
three-group inputs fail. -/
theorem c3_ip_dotted_quad_witness :
    ip ("1".toList ++ '.' :: ("22".toList ++ '.' :: ("233".toList ++ '.' :: "0".toList))) =
      .ok [] (.IP [digitsVal "1".toList, digitsVal "22".toList,
                   digitsVal "233".toList, digitsVal "0".toList]) ∧
    (∃ e, ip ("999".toList ++ ".1.1.1".toList) = .err e) ∧
    (∃ e, ip ("1".toList ++ '.' :: ("256".toList ++ ".1.1".toList)) = .err e) ∧
    (∃ e, ip ("1".toList ++ '.' :: ("2".toList ++ '.' :: ("300".toList ++ ".1".toList))) = .err e) ∧
    (∃ e, ip ("1".toList ++ '.' :: ("2".toList ++ '.' :: ("3".toList ++ '.' :: ("999".toList ++ [])))) = .err e) ∧
    (∃ e, ip "192".toList = .err e) ∧
    (∃ e, ip ("192".toList ++ '.' :: "168".toList) = .err e) ∧
    (∃ e, ip ("192".toList ++ '.' :: ("168".toList ++ '.' :: "0".toList)) = .err e) := by
  have hg1 : GoodOctet "1".toList := ⟨by decide, by decide, by decide, by decide⟩
  have hg2 : GoodOctet "2".toList := ⟨by decide, by decide, by decide, by decide⟩
  have hg3 : GoodOctet "3".toList := ⟨by decide, by decide, by decide, by decide⟩
  have hg22 : GoodOctet "22".toList := ⟨by decide, by decide, by decide, by decide⟩
  have hg233 : GoodOctet "233".toList := ⟨by decide, by decide, by decide, by decide⟩
  have hg0 : GoodOctet "0".toList := ⟨by decide, by decide, by decide, by decide⟩
  have hg192 : GoodOctet "192".toList := ⟨by decide, by decide, by decide, by decide⟩
  have hg168 : GoodOctet "168".toList := ⟨by decide, by decide, by decide, by decide⟩
  have hb999 : BadOctet "999".toList := ⟨by decide, by decide, by decide⟩
  have hb256 : BadOctet "256".toList := ⟨by decide, by decide, by decide⟩
  have hb300 : BadOctet "300".toList := ⟨by decide, by decide, by decide⟩
  refine ⟨?_, ?_, ?_, ?_, ?_, ?_, ?_, ?_⟩
  · exact c3_ip_dotted_quad.1 _ _ _ _ hg1 hg22 hg233 hg0
  · exact c3_ip_dotted_quad.2.1 _ _ hb999
  · exact c3_ip_dotted_quad.2.2.1 _ _ _ hg1 hb256
  · exact c3_ip_dotted_quad.2.2.2.1 _ _ _ _ hg1 hg2 hb300
  · exact c3_ip_dotted_quad.2.2.2.2.1 _ _ _ _ _ hg1 hg2 hg3 hb999
  · exact c3_ip_dotted_quad.2.2.2.2.2.1 _ hg192
  · exact c3_ip_dotted_quad.2.2.2.2.2.2.1 _ _ hg192 hg168
  · exact c3_ip_dotted_quad.2.2.2.2.2.2.2 _ _ _ hg192 hg168 hg0

/-! ## `port` -/

theorem port_run (s t : Input) (hne : s ≠ []) (hmem : ∀ c ∈ s, c ∈ digitChars)
    (hstop : s.length = 5 ∨ (s.length ≤ 5 ∧ headStops isDigitChar t)) :
    port (':' :: (s ++ t)) = match parseU16 s with
      | some n => .ok t n
      | none => .err ⟨[]⟩ := by
  have htag : tagP ":".toList (':' :: (s ++ t)) = .ok (s ++ t) ":".toList :=
    tagP_single_run ':' (s ++ t)
  have hdig : n_to_m_digits 1 5 (s ++ t) = .ok t s :=
    n_to_m_digits_run 1 5 s t hmem (List.length_pos.mpr hne) hstop
  have hctx : contextP "port"
      (pbind (tagP ":".toList) fun _ => pmap (n_to_m_digits 1 5) fun s => s)
      (':' :: (s ++ t)) = .ok t s := by
    apply contextP_ok
    simp only [pbind, pmap, htag, hdig]
  simp only [port, hctx]

theorem port_ok (s t : Input) (hne : s ≠ []) (hmem : ∀ c ∈ s, c ∈ digitChars)
    (hstop : s.length = 5 ∨ (s.length ≤ 5 ∧ headStops isDigitChar t))
    (hle : digitsVal s ≤ 65535) :
    port (':' :: (s ++ t)) = .ok t (digitsVal s) := by
  rw [port_run s t hne hmem hstop, parseU16_some s hne (all_digits s hmem) hle]

theorem port_overflow (s t : Input) (hlen : s.length = 5) (hmem : ∀ c ∈ s, c ∈ digitChars)
    (hgt : 65535 < digitsVal s) :
    port (':' :: (s ++ t)) = .err ⟨[]⟩ := by
  have hne : s ≠ [] := by intro hc; rw [hc] at hlen; simp at hlen
  rw [port_run s t hne hmem (Or.inl hlen), parseU16_overflow s hgt]

theorem port_inv (i r : Input) (v : Nat) (h : port i = .ok r v) :
    ∃ s, i = ':' :: (s ++ r) ∧ s ≠ [] ∧ s.all isDigitChar ∧ s.length ≤ 5 ∧
      digitsVal s = v ∧ v ≤ 65535 := by
  cases hc : contextP "port"
      (pbind (tagP ":".toList) fun _ => pmap (n_to_m_digits 1 5) fun s => s) i with
  | ok next s =>
    have hinner := contextP_inv_ok _ _ _ _ _ hc
    rcases pbind_inv _ _ _ _ _ hinner with ⟨r1, v1, htag, hrest⟩
    rcases pmap_inv _ _ _ _ _ hrest with ⟨s2, hdig, hs2⟩
    rcases tagP_inv _ _ _ _ htag with ⟨hv1, hi⟩
    rcases manyMN_digits_inv 5 1 r1 next s2 hdig with ⟨hr1, hmem, hlen, hcase⟩
    cases hp : parseU16 s with
    | some n =>
      have hport : port i = .ok next n := by simp only [port, hc, hp]
      rw [hport] at h
      injection h with h1 h2
      rcases parseU16_inv s n hp with ⟨hn, _, hall, hle⟩
      have hpos : 0 < s2.length := by rcases hcase with h3 | h3 <;> omega
      refine ⟨s2, by rw [hi, hr1, h1]; rfl, List.length_pos.mp hpos, ?_, hlen, ?_, ?_⟩
      · rw [← hs2]; exact hall
      · rw [← hs2, ← hn, h2]
      · rw [← h2, hn]; exact hle
    | none =>
      have hport : port i = .err ⟨[]⟩ := by simp only [port, hc, hp]
      rw [hport] at h
      exact PResult.noConfusion h
  | err e =>
    have hport : port i = .err e := by simp only [port, hc]
    rw [hport] at h
    exact PResult.noConfusion h
  | panic =>
    have hport : port i = .panic := by simp only [port, hc]
    rw [hport] at h
    exact PResult.noConfusion h

/-- C7: `port` succeeds exactly on `:` followed by a 1-5-digit run whose value
fits in 16 bits (returning that value, with the run captured greedily up to 5
digits); a captured 5-digit run above 65535 fails the whole parse, and in
particular `port(":80800")` fails. -/
theorem c7_port_u16 :
    (∀ s t, s ≠ [] → (∀ c ∈ s, c ∈ digitChars) →
      (s.length = 5 ∨ (s.length ≤ 5 ∧ headStops isDigitChar t)) →
      digitsVal s ≤ 65535 →
      port (':' :: (s ++ t)) = .ok t (digitsVal s)) ∧
    (∀ s t, s.length = 5 → (∀ c ∈ s, c ∈ digitChars) → 65535 < digitsVal s →
      port (':' :: (s ++ t)) = .err ⟨[]⟩) ∧
    (∀ i r v, port i = .ok r v →
      ∃ s, i = ':' :: (s ++ r) ∧ s ≠ [] ∧ s.all isDigitChar ∧ s.length ≤ 5 ∧
        digitsVal s = v ∧ v ≤ 65535) ∧
    port ":80800".toList = .err ⟨[]⟩ :=
  ⟨port_ok, port_overflow, port_inv, by rfl⟩

/-- Witness for C7: `":8080"` parses to 8080, `":80800"` fails, and the
success-shape inversion holds at `":1"`. -/
theorem c7_port_u16_witness :
    port (':' :: ("8080".toList ++ [])) = .ok [] (digitsVal "8080".toList) ∧
    port (':' :: ("80800".toList ++ "x".toList)) = .err ⟨[]⟩ ∧
    (∃ s, ":1".toList = ':' :: (s ++ []) ∧ s ≠ [] ∧ s.all isDigitChar ∧
      s.length ≤ 5 ∧ digitsVal s = 1 ∧ 1 ≤ 65535) := by
  refine ⟨?_, ?_, ?_⟩
  · exact c7_port_u16.1 "8080".toList [] (by decide) (by decide)
      (Or.inr ⟨by decide, headStops_nil _⟩) (by decide)
  · exact c7_port_u16.2.1 "80800".toList "x".toList (by decide) (by decide) (by decide)
  · exact c7_port_u16.2.2.1 ":1".toList [] 1 (by rfl)

/-! ## `scheme` -/

theorem tagNoCaseP_ok (t i : Input) (h : lowerStr (i.take t.length) = lowerStr t) :
    tagNoCaseP t i = .ok (i.drop t.length) (i.take t.length) := by
  unfold tagNoCaseP; rw [if_pos h]

theorem tagNoCaseP_err (t i : Input) (h : ¬ lowerStr (i.take t.length) = lowerStr t) :
    tagNoCaseP t i = .err ⟨[(i, .Nomk .Tag)]⟩ := by
  unfold tagNoCaseP; rw [if_neg h]

theorem tagNoCaseP_inv (t i r v : Input) (h : tagNoCaseP t i = .ok r v) :
    v = i.take t.length ∧ r = i.drop t.length ∧ lowerStr v = lowerStr t := by
  unfold tagNoCaseP at h
  by_cases hc : lowerStr (i.take t.length) = lowerStr t
  · rw [if_pos hc] at h
    injection h with h1 h2
    exact ⟨h2.symm, h1.symm, by rw [← h2]; exact hc⟩
  · rw [if_neg hc] at h
    exact PResult.noConfusion h

theorem scheme_http (i : Input) (h : lowerStr (i.take 7) = "http://".toList) :
    scheme i = .ok (i.drop 7) .Http := by
  have htag : tagNoCaseP "HTTP://".toList i = .ok (i.drop 7) (i.take 7) := by
    have hh : lowerStr (i.take ("HTTP://".toList).length) = lowerStr "HTTP://".toList := h
    exact tagNoCaseP_ok "HTTP://".toList i hh
  have halt := alt2_ok1 (tagNoCaseP "HTTP://".toList) (tagNoCaseP "HTTPS://".toList)
    i (i.drop 7) (i.take 7) htag
  have hctx := contextP_ok "scheme" _ i (i.drop 7) (i.take 7) halt
  have hfrom : Scheme.fromStr (i.take 7) = some .Http := by
    unfold Scheme.fromStr
    rw [if_pos h]
  simp only [scheme, hctx, hfrom]

theorem lower_take_eight (i : Input) (h : lowerStr (i.take 8) = "https://".toList) :
    lowerStr (i.take 7) = "https:/".toList := by
  have h78 : (i.take 8).take 7 = i.take 7 := by
    rw [List.take_take]
    norm_num
  rw [← h78]
  show ((i.take 8).take 7).map lowerChar = "https:/".toList
  rw [List.map_take]
  show (lowerStr (i.take 8)).take 7 = "https:/".toList
  rw [h]
  rfl

theorem scheme_https (i : Input) (h : lowerStr (i.take 8) = "https://".toList) :
    scheme i = .ok (i.drop 8) .Https := by
  have hne1 : ¬ lowerStr (i.take ("HTTP://".toList).length) = lowerStr "HTTP://".toList := by
    intro hcon
    have h7 := lower_take_eight i h
    have : ("https:/".toList : Input) = "http://".toList := by
      rw [← h7]
      exact hcon
    exact absurd this (by decide)
  have htag1 : tagNoCaseP "HTTP://".toList i = .err ⟨[(i, .Nomk .Tag)]⟩ :=
    tagNoCaseP_err "HTTP://".toList i hne1
  have htag2 : tagNoCaseP "HTTPS://".toList i = .ok (i.drop 8) (i.take 8) := by
    have hh : lowerStr (i.take ("HTTPS://".toList).length) = lowerStr "HTTPS://".toList := h
    exact tagNoCaseP_ok "HTTPS://".toList i hh
  have halt := alt2_ok2 (tagNoCaseP "HTTP://".toList) (tagNoCaseP "HTTPS://".toList)
    i (i.drop 8) (i.take 8) _ htag1 htag2
  have hctx := contextP_ok "scheme" _ i (i.drop 8) (i.take 8) halt
  have hfrom : Scheme.fromStr (i.take 8) = some .Https := by
    unfold Scheme.fromStr
    rw [if_neg, if_pos h]
    rw [h]
    decide
  simp only [scheme, hctx, hfrom]

theorem scheme_err (i : Input) (h7 : ¬ lowerStr (i.take 7) = "http://".toList)
    (h8 : ¬ lowerStr (i.take 8) = "https://".toList) :
    scheme i = .err ⟨[(i, .Nomk .Tag), (i, .Nomk .Alt), (i, .Context "scheme")]⟩ := by
  have hlow1 : lowerStr "HTTP://".toList = "http://".toList := by decide
  have hlow2 : lowerStr "HTTPS://".toList = "https://".toList := by decide
  have htag1 : tagNoCaseP "HTTP://".toList i = .err ⟨[(i, .Nomk .Tag)]⟩ := by
    apply tagNoCaseP_err
    show ¬ lowerStr (i.take 7) = lowerStr "HTTP://".toList
    rw [hlow1]
    exact h7
  have htag2 : tagNoCaseP "HTTPS://".toList i = .err ⟨[(i, .Nomk .Tag)]⟩ := by
    apply tagNoCaseP_err
    show ¬ lowerStr (i.take 8) = lowerStr "HTTPS://".toList
    rw [hlow2]
    exact h8
  have halt := alt2_err (tagNoCaseP "HTTP://".toList) (tagNoCaseP "HTTPS://".toList)
    i _ _ htag1 htag2
  have hctx := contextP_err "scheme" _ i _ halt
  simp only [scheme, hctx]
  rfl

/-- C6: every input whose prefix is a case variant of `http://` (resp.
`https://`) makes `scheme` succeed with `Http` (resp. `Https`) and the rest of
the input as remainder; any other input fails with the error trail ending in
the `"scheme"` context label. -/
theorem c6_scheme_case_insensitive :
    ∀ i : Input,
      (lowerStr (i.take 7) = "http://".toList → scheme i = .ok (i.drop 7) .Http) ∧
      (lowerStr (i.take 8) = "https://".toList → scheme i = .ok (i.drop 8) .Https) ∧
      (¬ lowerStr (i.take 7) = "http://".toList →
        ¬ lowerStr (i.take 8) = "https://".toList →
        scheme i = .err ⟨[(i, .Nomk .Tag), (i, .Nomk .Alt), (i, .Context "scheme")]⟩) :=
  fun i => ⟨scheme_http i, scheme_https i, scheme_err i⟩

/-- Witness for C6 at `"hTtP://x"`, `"HTTPS://yay"` and `"bla://yay"`. -/
theorem c6_scheme_case_insensitive_witness :
    scheme "hTtP://x".toList = .ok ("hTtP://x".toList.drop 7) .Http ∧
    scheme "HTTPS://yay".toList = .ok ("HTTPS://yay".toList.drop 8) .Https ∧
    scheme "bla://yay".toList =
      .err ⟨[("bla://yay".toList, .Nomk .Tag), ("bla://yay".toList, .Nomk .Alt),
             ("bla://yay".toList, .Context "scheme")]⟩ :=
  ⟨(c6_scheme_case_insensitive "hTtP://x".toList).1 (by decide),
   (c6_scheme_case_insensitive "HTTPS://yay".toList).2.1 (by decide),
   (c6_scheme_case_insensitive "bla://yay".toList).2.2 (by decide) (by decide)⟩

/-! ## No parser in this program reaches the `panic!` branch -/

theorem err_ne_panic {α : Type} (e : VerboseError) : (PResult.err e : PResult α) ≠ .panic :=
  fun h => PResult.noConfusion h

theorem ok_ne_panic {α : Type} (r : Input) (v : α) : (PResult.ok r v : PResult α) ≠ .panic :=
  fun h => PResult.noConfusion h

theorem pbind_noPanic {α β : Type} (p : Parser α) (f : α → Parser β)
    (hp : ∀ i, p i ≠ .panic) (hf : ∀ a i, f a i ≠ .panic) :
    ∀ i, pbind p f i ≠ .panic := by
  intro i
  unfold pbind
  cases hpi : p i with
  | ok r v => exact hf v r
  | err e => exact err_ne_panic e
  | panic => exact absurd hpi (hp i)

theorem pmap_noPanic {α β : Type} (p : Parser α) (f : α → β)
    (hp : ∀ i, p i ≠ .panic) : ∀ i, pmap p f i ≠ .panic := by
  intro i
  unfold pmap
  cases hpi : p i with
  | ok r v => exact ok_ne_panic r (f v)
  | err e => exact err_ne_panic e
  | panic => exact absurd hpi (hp i)

theorem terminatedP_noPanic {α β : Type} (p : Parser α) (q : Parser β)
    (hp : ∀ i, p i ≠ .panic) (hq : ∀ i, q i ≠ .panic) :
    ∀ i, terminatedP p q i ≠ .panic :=
  pbind_noPanic p _ hp (fun a => pmap_noPanic q (fun _ => a) hq)

theorem separatedPairP_noPanic {α β γ : Type} (p : Parser α) (sep : Parser β) (q : Parser γ)
    (hp : ∀ i, p i ≠ .panic) (hs : ∀ i, sep i ≠ .panic) (hq : ∀ i, q i ≠ .panic) :
    ∀ i, separatedPairP p sep q i ≠ .panic :=
  pbind_noPanic p _ hp
    (fun _ => pbind_noPanic sep _ hs (fun _ => pmap_noPanic q _ hq))

theorem optP_noPanic {α : Type} (p : Parser α) (hp : ∀ i, p i ≠ .panic) :
    ∀ i, optP p i ≠ .panic := by
  intro i
  unfold optP
  cases hpi : p i with
  | ok r v => exact ok_ne_panic r (some v)
  | err e => exact ok_ne_panic i none
  | panic => exact absurd hpi (hp i)

theorem alt2_noPanic {α : Type} (p q : Parser α)
    (hp : ∀ i, p i ≠ .panic) (hq : ∀ i, q i ≠ .panic) :
    ∀ i, alt2 p q i ≠ .panic := by
  intro i
  unfold alt2
  cases hpi : p i with
  | ok r v => exact ok_ne_panic r v
  | panic => exact absurd hpi (hp i)
  | err e1 =>
    cases hqi : q i with
    | ok r v => exact ok_ne_panic r v
    | err e2 => exact err_ne_panic _
    | panic => exact absurd hqi (hq i)

theorem contextP_noPanic {α : Type} (label : String) (p : Parser α)
    (hp : ∀ i, p i ≠ .panic) : ∀ i, contextP label p i ≠ .panic := by
  intro i
  unfold contextP
  cases hpi : p i with
  | ok r v => exact ok_ne_panic r v
  | err e => exact err_ne_panic _
  | panic => exact absurd hpi (hp i)

theorem tagP_noPanic (t : Input) : ∀ i, tagP t i ≠ .panic := by
  intro i
  unfold tagP
  by_cases hc : t.isPrefixOf i
  · rw [if_pos hc]; exact ok_ne_panic _ _
  · rw [if_neg hc]; exact err_ne_panic _

theorem tagNoCaseP_noPanic (t : Input) : ∀ i, tagNoCaseP t i ≠ .panic := by
  intro i
  unfold tagNoCaseP
  by_cases hc : lowerStr (i.take t.length) = lowerStr t
  · rw [if_pos hc]; exact ok_ne_panic _ _
  · rw [if_neg hc]; exact err_ne_panic _

theorem takeP_noPanic (n : Nat) : ∀ i, takeP n i ≠ .panic := by
  intro i
  unfold takeP
  by_cases hc : n ≤ i.length
  · rw [if_pos hc]; exact ok_ne_panic _ _
  · rw [if_neg hc]; exact err_ne_panic _

theorem oneOfP_noPanic (cs : Input) : ∀ i, oneOfP cs i ≠ .panic := by
  intro i
  cases i with
  | nil => exact err_ne_panic _
  | cons c u =>
    show (if cs.contains c then PResult.ok u c
      else .err ⟨[(c :: u, .Nomk .OneOf)]⟩) ≠ .panic
    by_cases hc : cs.contains c
    · rw [if_pos hc]; exact ok_ne_panic _ _
    · rw [if_neg hc]; exact err_ne_panic _

theorem sap1_noPanic (pred : Char → Bool) (k : NomKind) :
    ∀ i, splitAtPosition1Complete pred k i ≠ .panic := by
  intro i
  unfold splitAtPosition1Complete
  by_cases hc : (i.takeWhile (fun c => !(pred c))).isEmpty
  · rw [if_pos hc]; exact err_ne_panic _
  · rw [if_neg hc]; exact ok_ne_panic _ _

theorem sapC_noPanic (pred : Char → Bool) :
    ∀ i, splitAtPositionComplete pred i ≠ .panic := by
  intro i
  exact ok_ne_panic _ _

theorem many0Go_noPanic {α : Type} (p : Parser α) (hp : ∀ i, p i ≠ .panic) :
    ∀ fuel i, many0Go p fuel i ≠ .panic := by
  intro fuel
  induction fuel with
  | zero => intro i; exact ok_ne_panic _ _
  | succ f ih =>
    intro i
    cases hpi : p i with
    | err e => simp only [many0Go, hpi]; exact ok_ne_panic _ _
    | panic => exact absurd hpi (hp i)
    | ok tail v =>
      simp only [many0Go, hpi]
      by_cases hl : tail.length = i.length
      · rw [if_pos hl]; exact err_ne_panic _
      · rw [if_neg hl]
        cases hrec : many0Go p f tail with
        | ok r vs => simp only [hrec]; exact ok_ne_panic _ _
        | err e => simp only [hrec]; exact err_ne_panic _
        | panic => exact absurd hrec (ih tail)

theorem many0P_noPanic {α : Type} (p : Parser α) (hp : ∀ i, p i ≠ .panic) :
    ∀ i, many0P p i ≠ .panic := by
  intro i
  exact many0Go_noPanic p hp _ i

theorem many1Go_noPanic {α : Type} (p : Parser α) (hp : ∀ i, p i ≠ .panic) :
    ∀ fuel i, many1Go p fuel i ≠ .panic := by
  intro fuel
  induction fuel with
  | zero => intro i; exact ok_ne_panic _ _
  | succ f ih =>
    intro i
    cases hpi : p i with
    | err e => simp only [many1Go, hpi]; exact ok_ne_panic _ _
    | panic => exact absurd hpi (hp i)
    | ok tail v =>
      simp only [many1Go, hpi]
      by_cases hl : tail.length = i.length
      · rw [if_pos hl]; exact err_ne_panic _
      · rw [if_neg hl]
        cases hrec : many1Go p f tail with
        | ok r vs => simp only [hrec]; exact ok_ne_panic _ _
        | err e => simp only [hrec]; exact err_ne_panic _
        | panic => exact absurd hrec (ih tail)

theorem many1P_noPanic {α : Type} (p : Parser α) (hp : ∀ i, p i ≠ .panic) :
    ∀ i, many1P p i ≠ .panic := by
  intro i
  cases hpi : p i with
  | err e => simp only [many1P, hpi]; exact err_ne_panic _
  | panic => simp only [many1P, hpi]; exact absurd hpi (hp i)
  | ok tail v =>
    cases hrec : many1Go p (tail.length + 1) tail with
    | ok r vs => simp only [many1P, hpi, hrec]; exact ok_ne_panic _ _
    | err e => simp only [many1P, hpi, hrec]; exact err_ne_panic _
    | panic => exact absurd hrec (many1Go_noPanic p hp _ tail)

theorem manyMNGo_noPanic {α : Type} (p : Parser α) (hp : ∀ i, p i ≠ .panic) :
    ∀ mx mn i, manyMNGo p mn mx i ≠ .panic := by
  intro mx
  induction mx with
  | zero => intro mn i; exact ok_ne_panic _ _
  | succ m ih =>
    intro mn i
    cases hpi : p i with
    | err e =>
      simp only [manyMNGo, hpi]
      by_cases hc : 0 < mn
      · rw [if_pos hc]; exact err_ne_panic _
      · rw [if_neg hc]; exact ok_ne_panic _ _
    | panic => exact absurd hpi (hp i)
    | ok tail v =>
      simp only [manyMNGo, hpi]
      by_cases hl : tail.length = i.length
      · rw [if_pos hl]; exact err_ne_panic _
      · rw [if_neg hl]
        cases hrec : manyMNGo p (mn - 1) m tail with
        | ok r vs => simp only [hrec]; exact ok_ne_panic _ _
        | err e => simp only [hrec]; exact err_ne_panic _
        | panic => exact absurd hrec (ih (mn - 1) tail)

theorem manyMNP_noPanic {α : Type} (mn mx : Nat) (p : Parser α)
    (hp : ∀ i, p i ≠ .panic) : ∀ i, manyMNP mn mx p i ≠ .panic := by
  intro i
  exact manyMNGo_noPanic p hp mx mn i

theorem countGo_noPanic {α : Type} (p : Parser α) (hp : ∀ i, p i ≠ .panic) :
    ∀ n i, countGo p n i ≠ .panic := by
  intro n
  induction n with
  | zero => intro i; exact ok_ne_panic _ _
  | succ m ih =>
    intro i
    cases hpi : p i with
    | err e => simp only [countGo, hpi]; exact err_ne_panic _
    | panic => exact absurd hpi (hp i)
    | ok tail v =>
      cases hrec : countGo p m tail with
      | ok r vs => simp only [countGo, hpi, hrec]; exact ok_ne_panic _ _
      | err e => simp only [countGo, hpi, hrec]; exact err_ne_panic _
      | panic => exact absurd hrec (ih tail)

theorem countP_noPanic {α : Type} (p : Parser α) (n : Nat)
    (hp : ∀ i, p i ≠ .panic) : ∀ i, countP p n i ≠ .panic := by
  intro i
  cases hrec : countGo p n i with
  | ok r vs => simp only [countP, hrec]; exact ok_ne_panic _ _
  | err e => simp only [countP, hrec]; exact err_ne_panic _
  | panic => exact absurd hrec (countGo_noPanic p hp n i)

theorem alphanumeric1_noPanic : ∀ i, alphanumeric1 i ≠ .panic := sap1_noPanic _ _

theorem alpha1_noPanic : ∀ i, alpha1 i ≠ .panic := sap1_noPanic _ _

theorem anh1_noPanic : ∀ i, alphanumerichyphen1 i ≠ .panic := sap1_noPanic _ _

theorem ucp_noPanic : ∀ i, url_code_points i ≠ .panic := sapC_noPanic _

theorem scheme_noPanic : ∀ i, scheme i ≠ .panic := by
  intro i
  cases hc : contextP "scheme"
      (alt2 (tagNoCaseP "HTTP://".toList) (tagNoCaseP "HTTPS://".toList)) i with
  | ok next matched =>
    have hinner := contextP_inv_ok _ _ _ _ _ hc
    rcases alt2_inv_ok _ _ _ _ _ hinner with h | h
    · rcases tagNoCaseP_inv _ _ _ _ h with ⟨_, _, hl⟩
      have hfrom : Scheme.fromStr matched = some .Http := by
        unfold Scheme.fromStr
        rw [if_pos (by rw [hl]; decide)]
      simp only [scheme, hc, hfrom]
      exact ok_ne_panic _ _
    · rcases tagNoCaseP_inv _ _ _ _ h with ⟨_, _, hl⟩
      have hfrom : Scheme.fromStr matched = some .Https := by
        unfold Scheme.fromStr
        rw [if_neg (by rw [hl]; decide), if_pos (by rw [hl]; decide)]
      simp only [scheme, hc, hfrom]
      exact ok_ne_panic _ _
  | err e => simp only [scheme, hc]; exact err_ne_panic _
  | panic =>
    exact absurd hc (contextP_noPanic _ _
      (alt2_noPanic _ _ (tagNoCaseP_noPanic _) (tagNoCaseP_noPanic _)) i)

theorem authority_noPanic : ∀ i, authority i ≠ .panic :=
  contextP_noPanic _ _
    (terminatedP_noPanic _ _
      (separatedPairP_noPanic _ _ _ alphanumeric1_noPanic
        (optP_noPanic _ (tagP_noPanic _)) (optP_noPanic _ alphanumeric1_noPanic))
      (tagP_noPanic _))

theorem host_noPanic : ∀ i, host i ≠ .panic :=
  pmap_noPanic _ _
    (contextP_noPanic _ _
      (alt2_noPanic _ _
        (pbind_noPanic _ _
          (many1P_noPanic _ (terminatedP_noPanic _ _ anh1_noPanic (tagP_noPanic _)))
          (fun _ => pmap_noPanic _ _ alpha1_noPanic))
        (pbind_noPanic _ _ (manyMNP_noPanic 1 1 _ anh1_noPanic)
          (fun _ => pmap_noPanic _ _ (takeP_noPanic 0)))))

theorem n_to_m_digits_noPanic (n m : Nat) : ∀ i, n_to_m_digits n m i ≠ .panic :=
  manyMNP_noPanic n m _ (oneOfP_noPanic _)

theorem ip_num_noPanic : ∀ i, ip_num i ≠ .panic := by
  intro i
  cases hc : contextP "ip number" (n_to_m_digits 1 3) i with
  | ok next s =>
    cases hp : parseU8 s with
    | some n => simp only [ip_num, hc, hp]; exact ok_ne_panic _ _
    | none => simp only [ip_num, hc, hp]; exact err_ne_panic _
  | err e => simp only [ip_num, hc]; exact err_ne_panic _
  | panic =>
    exact absurd hc (contextP_noPanic _ _ (n_to_m_digits_noPanic 1 3) i)

theorem ip_noPanic : ∀ i, ip i ≠ .panic :=
  pmap_noPanic _ _
    (contextP_noPanic _ _
      (pbind_noPanic _ _
        (countP_noPanic _ 3 (terminatedP_noPanic _ _ ip_num_noPanic (tagP_noPanic _)))
        (fun _ => pmap_noPanic _ _ ip_num_noPanic)))

theorem ip_or_host_noPanic : ∀ i, ip_or_host i ≠ .panic :=
  contextP_noPanic _ _ (alt2_noPanic _ _ ip_noPanic host_noPanic)

theorem path_noPanic : ∀ i, path i ≠ .panic :=
  contextP_noPanic _ _
    (pbind_noPanic _ _ (tagP_noPanic _)
      (fun _ => pbind_noPanic _ _
        (many0P_noPanic _ (terminatedP_noPanic _ _ ucp_noPanic (tagP_noPanic _)))
        (fun _ => pmap_noPanic _ _ (optP_noPanic _ ucp_noPanic))))

theorem qpPair_noPanic : ∀ i, qpPair i ≠ .panic :=
  pbind_noPanic _ _ (tagP_noPanic _)
    (fun _ => pbind_noPanic _ _ ucp_noPanic
      (fun _ => pbind_noPanic _ _ (tagP_noPanic _)
        (fun _ => pmap_noPanic _ _ ucp_noPanic)))

theorem query_params_noPanic : ∀ i, query_params i ≠ .panic :=
  contextP_noPanic _ _
    (pbind_noPanic _ _ (tagP_noPanic _)
      (fun _ => pbind_noPanic _ _ ucp_noPanic
        (fun _ => pbind_noPanic _ _ (tagP_noPanic _)
          (fun _ => pbind_noPanic _ _ ucp_noPanic
            (fun _ => pmap_noPanic _ _ (many0P_noPanic _ qpPair_noPanic))))))

theorem fragment_noPanic : ∀ i, fragment i ≠ .panic :=
  contextP_noPanic _ _
    (pbind_noPanic _ _ (tagP_noPanic _) (fun _ => pmap_noPanic _ _ ucp_noPanic))

theorem port_noPanic : ∀ i, port i ≠ .panic := by
  intro i
  cases hc : contextP "port"
      (pbind (tagP ":".toList) fun _ => pmap (n_to_m_digits 1 5) fun s => s) i with
  | ok next s =>
    cases hp : parseU16 s with
    | some n => simp only [port, hc, hp]; exact ok_ne_panic _ _
    | none => simp only [port, hc, hp]; exact err_ne_panic _
  | err e => simp only [port, hc]; exact err_ne_panic _
  | panic =>
    exact absurd hc (contextP_noPanic _ _
      (pbind_noPanic _ _ (tagP_noPanic _)
        (fun _ => pmap_noPanic _ _ (n_to_m_digits_noPanic 1 5))) i)

theorem uri_noPanic : ∀ i, uri i ≠ .panic :=
  contextP_noPanic _ _
    (pbind_noPanic _ _ scheme_noPanic
      (fun _ => pbind_noPanic _ _ (optP_noPanic _ authority_noPanic)
        (fun _ => pbind_noPanic _ _ ip_or_host_noPanic
          (fun _ => pbind_noPanic _ _ (optP_noPanic _ port_noPanic)
            (fun _ => pbind_noPanic _ _ (optP_noPanic _ path_noPanic)
              (fun _ => pbind_noPanic _ _ (optP_noPanic _ query_params_noPanic)
                (fun _ => pmap_noPanic _ _ (optP_noPanic _ fragment_noPanic))))))))

/-- C9: on every input, `scheme` and the top-level `uri` parser return either
a success or an error value — the `panic!` branch of `From<&str> for Scheme`
is unreachable, because the conversion is only applied to text matched
case-insensitively against `HTTP://` or `HTTPS://`. -/
theorem c9_no_panics :
    (∀ i : Input, (∃ r v, scheme i = .ok r v) ∨ (∃ e, scheme i = .err e)) ∧
    (∀ i : Input, (∃ r v, uri i = .ok r v) ∨ (∃ e, uri i = .err e)) := by
  constructor
  · intro i
    cases hc : scheme i with
    | ok r v => exact Or.inl ⟨r, v, rfl⟩
    | err e => exact Or.inr ⟨e, rfl⟩
    | panic => exact absurd hc (scheme_noPanic i)
  · intro i
    cases hc : uri i with
    | ok r v => exact Or.inl ⟨r, v, rfl⟩
    | err e => exact Or.inr ⟨e, rfl⟩
    | panic => exact absurd hc (uri_noPanic i)

/-! ## `authority` -/

theorem headStops_cons_inv (q : Char → Bool) (c : Char) (u : Input)
    (h : headStops q (c :: u)) : q c = false := h

theorem authority_colon (u p r : Input) (hu : u ≠ []) (hua : ∀ c ∈ u, isAlphanumChar c)
    (hpa : ∀ c ∈ p, isAlphanumChar c) :
    authority (u ++ ':' :: (p ++ '@' :: r)) =
      .ok r (u, if p.isEmpty then none else some p) := by
  have h1 : alphanumeric1 (u ++ ':' :: (p ++ '@' :: r)) = .ok (':' :: (p ++ '@' :: r)) u :=
    alphanumeric1_run u _ hua (headStops_cons _ _ _ (by decide)) hu
  have h2 : optP (tagP ":".toList) (':' :: (p ++ '@' :: r)) =
      .ok (p ++ '@' :: r) (some ":".toList) :=
    optP_some _ _ _ _ (tagP_single_run ':' (p ++ '@' :: r))
  by_cases hp : p = []
  · subst hp
    have h3 : alphanumeric1 ('@' :: r) = .err ⟨[('@' :: r, .Nomk .AlphaNumeric)]⟩ :=
      alphanumeric1_stop _ (headStops_cons _ _ _ (by decide))
    have h3o : optP alphanumeric1 ('@' :: r) = .ok ('@' :: r) none := optP_none _ _ _ h3
    have h4 : tagP "@".toList ('@' :: r) = .ok r "@".toList := tagP_single_run '@' r
    simp only [List.nil_append] at h1 h2
    simp only [authority, contextP, terminatedP, separatedPairP,
      pbind, pmap, List.nil_append, h1, h2, h3o, h4]
    rfl
  · have h3 : alphanumeric1 (p ++ '@' :: r) = .ok ('@' :: r) p :=
      alphanumeric1_run p _ hpa (headStops_cons _ _ _ (by decide)) hp
    have h3o : optP alphanumeric1 (p ++ '@' :: r) = .ok ('@' :: r) (some p) :=
      optP_some _ _ _ _ h3
    have h4 : tagP "@".toList ('@' :: r) = .ok r "@".toList := tagP_single_run '@' r
    simp only [authority, contextP, terminatedP, separatedPairP, pbind, pmap,
      h1, h2, h3o, h4]
    simp [hp]

theorem authority_nocolon (u r : Input) (hu : u ≠ []) (hua : ∀ c ∈ u, isAlphanumChar c) :
    authority (u ++ '@' :: r) = .ok r (u, none) := by
  have h1 : alphanumeric1 (u ++ '@' :: r) = .ok ('@' :: r) u :=
    alphanumeric1_run u _ hua (headStops_cons _ _ _ (by decide)) hu
  have h2 : optP (tagP ":".toList) ('@' :: r) = .ok ('@' :: r) none :=
    optP_none _ _ _ (tagP_single_err ':' _ (by simp))
  have h3 : alphanumeric1 ('@' :: r) = .err ⟨[('@' :: r, .Nomk .AlphaNumeric)]⟩ :=
    alphanumeric1_stop _ (headStops_cons _ _ _ (by decide))
  have h3o : optP alphanumeric1 ('@' :: r) = .ok ('@' :: r) none := optP_none _ _ _ h3
  have h4 : tagP "@".toList ('@' :: r) = .ok r "@".toList := tagP_single_run '@' r
  simp only [authority, contextP, terminatedP, separatedPairP, pbind, pmap,
    h1, h2, h3o, h4]

theorem authority_at (r : Input) :
    authority ('@' :: r) =
      .err ⟨[(('@' :: r), .Nomk .AlphaNumeric), (('@' :: r), .Context "authority")]⟩ := by
  have h1 : alphanumeric1 ('@' :: r) = .err ⟨[('@' :: r, .Nomk .AlphaNumeric)]⟩ :=
    alphanumeric1_stop _ (headStops_cons _ _ _ (by decide))
  simp only [authority, contextP, terminatedP, separatedPairP, pbind, h1]
  rfl

theorem authority_inv (i r : Input) (u : Input) (pw : Option Input)
    (h : authority i = .ok r (u, pw)) :
    u ≠ [] ∧ (∀ c ∈ u, isAlphanumChar c) ∧
      ((i = u ++ '@' :: r ∧ pw = none) ∨
       (∃ p, i = u ++ ':' :: (p ++ '@' :: r) ∧ (∀ c ∈ p, isAlphanumChar c) ∧
         pw = if p.isEmpty then none else some p)) := by
  have hinner := contextP_inv_ok _ _ _ _ _ h
  rcases pbind_inv _ _ _ _ _ hinner with ⟨r1, v1, hsep, hterm⟩
  rcases pmap_inv _ _ _ _ _ hterm with ⟨v2, htag, hval⟩
  rcases tagP_inv _ _ _ _ htag with ⟨hv2, hr1⟩
  rcases pbind_inv _ _ _ _ _ hsep with ⟨r2, a, halnum, hrest2⟩
  rcases pbind_inv _ _ _ _ _ hrest2 with ⟨r3, sepv, hopt1, hrest3⟩
  rcases pmap_inv _ _ _ _ _ hrest3 with ⟨b, hopt2, hpair⟩
  rcases sap1_inv _ _ isAlphanumChar (fun _ => rfl) i r2 a halnum with
    ⟨hi, hane, hamem, hstop2⟩
  have hu : u = a ∧ pw = b := by
    have hx : (u, pw) = (a, b) := by rw [hval, hpair]
    exact ⟨congrArg Prod.fst hx, congrArg Prod.snd hx⟩
  obtain ⟨hua, hpwb⟩ := hu
  subst hua
  subst hpwb
  refine ⟨hane, hamem, ?_⟩
  rcases optP_inv _ _ _ _ hopt1 with ⟨hsv, hr3⟩ | ⟨tv, hsv, htagc⟩
  · rcases optP_inv _ _ _ _ hopt2 with ⟨hbv, hr1b⟩ | ⟨pv, hbv, halnum2⟩
    · left
      refine ⟨?_, hbv⟩
      rw [hi, ← hr3, ← hr1b, hr1]
      rfl
    · exfalso
      rcases sap1_inv _ _ isAlphanumChar (fun _ => rfl) r3 r1 pv halnum2 with
        ⟨hr3e, hpne, hpmem, _⟩
      rw [← hr3] at hstop2
      rw [hr3e] at hstop2
      cases pv with
      | nil => exact hpne rfl
      | cons c pv2 =>
        have hct : isAlphanumChar c = true := hpmem c (by simp)
        have hcf : isAlphanumChar c = false := headStops_cons_inv _ _ _ hstop2
        rw [hct] at hcf
        exact Bool.noConfusion hcf
  · rcases tagP_inv _ _ _ _ htagc with ⟨htv, hr2⟩
    rcases optP_inv _ _ _ _ hopt2 with ⟨hbv, hr1b⟩ | ⟨pv, hbv, halnum2⟩
    · right
      refine ⟨[], ?_, ?_, ?_⟩
      · rw [hi, hr2, ← hr1b, hr1]
        rfl
      · intro c hc
        cases hc
      · rw [hbv]
        rfl
    · rcases sap1_inv _ _ isAlphanumChar (fun _ => rfl) r3 r1 pv halnum2 with
        ⟨hr3e, hpne, hpmem, _⟩
      right
      refine ⟨pv, ?_, hpmem, ?_⟩
      · rw [hi, hr2, hr3e, hr1]
        rfl
      · rw [hbv, if_neg (by simpa using hpne)]

theorem authority_opt_absent (i : Input) (hno : ¬ ∃ r v, authority i = .ok r v) :
    optP authority i = .ok i none := by
  cases hc : authority i with
  | ok r v => exact absurd ⟨r, v, hc⟩ hno
  | err e => exact optP_none _ _ _ hc
  | panic => exact absurd hc (authority_noPanic i)

/-- C5: `authority` succeeds exactly on a non-empty alphanumeric username,
an optional `:` with an optional non-empty alphanumeric password (an empty
password after `:` comes out as "no password"), and a mandatory `@`; an
input starting with `@` fails, and when `authority` cannot succeed the
`opt` wrapper returns "absent" with the cursor unconsumed. -/
theorem c5_authority_shape :
    (∀ u p r, u ≠ [] → (∀ c ∈ u, isAlphanumChar c) → (∀ c ∈ p, isAlphanumChar c) →
      authority (u ++ ':' :: (p ++ '@' :: r)) =
        .ok r (u, if p.isEmpty then none else some p)) ∧
    (∀ u r, u ≠ [] → (∀ c ∈ u, isAlphanumChar c) →
      authority (u ++ '@' :: r) = .ok r (u, none)) ∧
    (∀ i r u pw, authority i = .ok r (u, pw) →
      u ≠ [] ∧ (∀ c ∈ u, isAlphanumChar c) ∧
        ((i = u ++ '@' :: r ∧ pw = none) ∨
         (∃ p, i = u ++ ':' :: (p ++ '@' :: r) ∧ (∀ c ∈ p, isAlphanumChar c) ∧
           pw = if p.isEmpty then none else some p))) ∧
    (∀ r, authority ('@' :: r) =
      .err ⟨[(('@' :: r), .Nomk .AlphaNumeric), (('@' :: r), .Context "authority")]⟩) ∧
    (∀ i, (¬ ∃ r v, authority i = .ok r v) → optP authority i = .ok i none) :=
  ⟨authority_colon, authority_nocolon, authority_inv, authority_at, authority_opt_absent⟩

/-- Witness for C5 at `"username:password@zupzup.org"`, `"username@zupzup.org"`,
`"@zupzup.org"` and the unconsumed-on-failure clause at `"zupzup.org"`. -/
theorem c5_authority_shape_witness :
    authority ("username".toList ++ ':' :: ("password".toList ++ '@' :: "zupzup.org".toList)) =
      .ok "zupzup.org".toList ("username".toList,
        if "password".toList.isEmpty then none else some "password".toList) ∧
    authority ("username".toList ++ '@' :: "zupzup.org".toList) =
      .ok "zupzup.org".toList ("username".toList, none) ∧
    ("u".toList ≠ [] ∧ (∀ c ∈ "u".toList, isAlphanumChar c) ∧
      (("u@x".toList = "u".toList ++ '@' :: "x".toList ∧ (none : Option Input) = none) ∨
       (∃ p, "u@x".toList = "u".toList ++ ':' :: (p ++ '@' :: "x".toList) ∧
         (∀ c ∈ p, isAlphanumChar c) ∧
         (none : Option Input) = if p.isEmpty then none else some p))) ∧
    authority ('@' :: "zupzup.org".toList) =
      .err ⟨[(('@' :: "zupzup.org".toList), .Nomk .AlphaNumeric),
             (('@' :: "zupzup.org".toList), .Context "authority")]⟩ ∧
    optP authority "zupzup.org".toList = .ok "zupzup.org".toList none := by
  refine ⟨?_, ?_, ?_, ?_, ?_⟩
  · exact c5_authority_shape.1 "username".toList "password".toList "zupzup.org".toList
      (by decide) (by decide) (by decide)
  · exact c5_authority_shape.2.1 "username".toList "zupzup.org".toList (by decide) (by decide)
  · exact c5_authority_shape.2.2.1 "u@x".toList "x".toList "u".toList none (by rfl)
  · exact c5_authority_shape.2.2.2.1 "zupzup.org".toList
  · apply c5_authority_shape.2.2.2.2 "zupzup.org".toList
    intro hex
    rcases hex with ⟨r, v, hc⟩
    rw [show authority "zupzup.org".toList =
      .err ⟨[(".org".toList, .Nomk .Tag), ("zupzup.org".toList, .Context "authority")]⟩
      from rfl] at hc
    exact PResult.noConfusion hc

/-! ## `host` -/

theorem alpha_isAnh (c : Char) (h : isAlphaChar c = true) : isAnhChar c = true := by
  simp [isAnhChar, isAlphanumChar, h]

theorem headStops_anh_to_alpha (t : Input) (h : headStops isAnhChar t) :
    headStops isAlphaChar t := by
  cases t with
  | nil => trivial
  | cons c u =>
    have hc := headStops_cons_inv _ _ _ h
    apply headStops_cons
    cases ha : isAlphaChar c
    · rfl
    · rw [alpha_isAnh c ha] at hc
      exact Bool.noConfusion hc

theorem hInner_run (l rest : Input) (hl : GoodLabel l) :
    terminatedP alphanumerichyphen1 (tagP ".".toList) (l ++ '.' :: rest) = .ok rest l := by
  obtain ⟨hne, hmem⟩ := hl
  have h1 : alphanumerichyphen1 (l ++ '.' :: rest) = .ok ('.' :: rest) l :=
    anh1_run l _ hmem (headStops_cons _ _ _ (by decide)) hne
  have h2 : tagP ".".toList ('.' :: rest) = .ok rest ".".toList :=
    tagP_single_run '.' rest
  simp only [terminatedP, pbind, pmap, h1, h2]

theorem hInner_err (s t : Input) (hs : ∀ c ∈ s, isAnhChar c)
    (ht : headStops isAnhChar t) (hdot : t.head? ≠ some '.') :
    ∃ e, terminatedP alphanumerichyphen1 (tagP ".".toList) (s ++ t) = .err e := by
  by_cases hsne : s = []
  · subst hsne
    have h1 := sap1_stop _ .AlphaNumeric isAnhChar anh_pred t ht
    refine ⟨⟨[(t, .Nomk .AlphaNumeric)]⟩, ?_⟩
    simp only [List.nil_append, terminatedP, pbind, alphanumerichyphen1, h1]
  · have h1 : alphanumerichyphen1 (s ++ t) = .ok t s := anh1_run s t hs ht hsne
    have h2 : tagP ".".toList t = .err ⟨[(t, .Nomk .Tag)]⟩ := tagP_single_err '.' t hdot
    refine ⟨⟨[(t, .Nomk .Tag)]⟩, ?_⟩
    simp only [terminatedP, pbind, pmap, h1, h2]

theorem dotLabels_cons_append (l : Input) (L : List Input) (u : Input) :
    dotLabels (l :: L) ++ u = l ++ '.' :: (dotLabels L ++ u) := by
  simp [dotLabels]

theorem many1Go_labels :
    ∀ (L : List Input) (u : Input) (fuel : Nat),
      (∀ x ∈ L, GoodLabel x) →
      (∃ e, terminatedP alphanumerichyphen1 (tagP ".".toList) u = .err e) →
      (dotLabels L ++ u).length < fuel →
      many1Go (terminatedP alphanumerichyphen1 (tagP ".".toList)) fuel (dotLabels L ++ u) =
        .ok u L := by
  intro L
  induction L with
  | nil =>
    intro u fuel _ hu hfuel
    cases fuel with
    | zero => omega
    | succ f =>
      rcases hu with ⟨e, he⟩
      simp only [dotLabels, List.nil_append] at hfuel ⊢
      simp only [many1Go, he]
  | cons l L ih =>
    intro u fuel hL hu hfuel
    obtain ⟨f, rfl⟩ : ∃ f, fuel = f + 1 := ⟨fuel - 1, by omega⟩
    have hl := hL l (by simp)
    have hrun : terminatedP alphanumerichyphen1 (tagP ".".toList)
        (dotLabels (l :: L) ++ u) = .ok (dotLabels L ++ u) l := by
      rw [dotLabels_cons_append]
      exact hInner_run l (dotLabels L ++ u) hl
    have hleq : (dotLabels (l :: L) ++ u).length =
        l.length + 1 + (dotLabels L ++ u).length := by
      rw [dotLabels_cons_append]
      simp [List.length_append]
      omega
    have hlen : ¬ ((dotLabels L ++ u).length = (dotLabels (l :: L) ++ u).length) := by
      omega
    have hrec : many1Go (terminatedP alphanumerichyphen1 (tagP ".".toList)) f
        (dotLabels L ++ u) = .ok u L := by
      apply ih u f (fun x hx => hL x (by simp [hx])) hu
      omega
    simp only [many1Go, hrun, if_neg hlen, hrec]

theorem many1P_labels (l : Input) (L : List Input) (u : Input)
    (hl : GoodLabel l) (hL : ∀ x ∈ L, GoodLabel x)
    (hu : ∃ e, terminatedP alphanumerichyphen1 (tagP ".".toList) u = .err e) :
    many1P (terminatedP alphanumerichyphen1 (tagP ".".toList)) (dotLabels (l :: L) ++ u) =
      .ok u (l :: L) := by
  have hrun : terminatedP alphanumerichyphen1 (tagP ".".toList)
      (dotLabels (l :: L) ++ u) = .ok (dotLabels L ++ u) l := by
    rw [dotLabels_cons_append]
    exact hInner_run l (dotLabels L ++ u) hl
  have hloop := many1Go_labels L u ((dotLabels L ++ u).length + 1) hL hu (by omega)
  simp only [many1P, hrun, hloop]

theorem host_multi (l : Input) (L : List Input) (f t : Input)
    (hl : GoodLabel l) (hL : ∀ x ∈ L, GoodLabel x)
    (hf : f ≠ []) (hfa : ∀ c ∈ f, isAlphaChar c)
    (ht : headStops isAnhChar t) (hdot : t.head? ≠ some '.') :
    host (dotLabels (l :: L) ++ (f ++ t)) =
      .ok t (.Host (List.intercalate ['.'] ((l :: L) ++ [f]))) := by
  have hfanh : ∀ c ∈ f, isAnhChar c := fun c hc => alpha_isAnh c (hfa c hc)
  have hu : ∃ e, terminatedP alphanumerichyphen1 (tagP ".".toList) (f ++ t) = .err e :=
    hInner_err f t hfanh ht hdot
  have hm1 := many1P_labels l L (f ++ t) hl hL hu
  have halpha : alpha1 (f ++ t) = .ok t f :=
    alpha1_run f t hfa (headStops_anh_to_alpha t ht) hf
  have hb1 : (pbind
      (many1P (terminatedP alphanumerichyphen1 (tagP ".".toList)))
      fun labels => pmap alpha1 fun last => (labels, last))
      (dotLabels (l :: L) ++ (f ++ t)) = .ok t (l :: L, f) := by
    simp only [pbind, pmap, hm1, halpha]
  have halt := alt2_ok1 _
    (pbind (manyMNP 1 1 alphanumerichyphen1) fun labels =>
      pmap (takeP 0) fun last => (labels, last)) _ _ _ hb1
  have hctx := contextP_ok "host" _ _ _ _ halt
  have hfe : f.isEmpty = false := by simpa using hf
  simp only [host, pmap, hctx, hostJoin, hfe, Bool.false_eq_true, if_false]

theorem host_single (l t : Input) (hl : GoodLabel l)
    (ht : headStops isAnhChar t) (hdot : t.head? ≠ some '.') :
    host (l ++ t) = .ok t (.Host l) := by
  obtain ⟨hne, hmem⟩ := hl
  rcases hInner_err l t hmem ht hdot with ⟨e, he⟩
  have hb1 : (pbind
      (many1P (terminatedP alphanumerichyphen1 (tagP ".".toList)))
      fun labels => pmap alpha1 fun last => (labels, last)) (l ++ t) =
      .err ⟨e.errors ++ [(l ++ t, .Nomk .Many1)]⟩ := by
    have hm1 : many1P (terminatedP alphanumerichyphen1 (tagP ".".toList)) (l ++ t) =
        .err ⟨e.errors ++ [(l ++ t, .Nomk .Many1)]⟩ := by
      simp only [many1P, he]
    simp only [pbind, hm1]
  have hanh : alphanumerichyphen1 (l ++ t) = .ok t l := anh1_run l t hmem ht hne
  have hm : manyMNP 1 1 alphanumerichyphen1 (l ++ t) = .ok t [l] := by
    have hlen : ¬ (t.length = (l ++ t).length) := by
      simp only [List.length_append]
      have := List.length_pos.mpr hne
      omega
    simp only [manyMNP, manyMNGo, hanh, if_neg hlen]
  have hb2 : (pbind (manyMNP 1 1 alphanumerichyphen1) fun labels =>
      pmap (takeP 0) fun last => (labels, last)) (l ++ t) = .ok t ([l], ([] : Input)) := by
    have htk : takeP 0 t = .ok t [] := takeP_zero t
    simp only [pbind, pmap, hm, htk]
  have halt := alt2_ok2 _ _ _ _ _ _ hb1 hb2
  have hctx := contextP_ok "host" _ _ _ _ halt
  have hj : hostJoin ([l], ([] : Input)) = .Host l := by
    simp [hostJoin, List.intercalate]
  simp only [host, pmap, hctx, hj]

/-- C4: a domain of dot-separated alphanumeric-or-hyphen labels whose final
label is alphabetic parses to the labels re-joined with `.`; a single dotless
label is accepted via the degenerate one-label branch; and on
`"example.123"` only `"example"` is consumed, leaving `".123"`. -/
theorem c4_host_domains :
    (∀ l L f t, GoodLabel l → (∀ x ∈ L, GoodLabel x) → f ≠ [] →
      (∀ c ∈ f, isAlphaChar c) → headStops isAnhChar t → t.head? ≠ some '.' →
      host (dotLabels (l :: L) ++ (f ++ t)) =
        .ok t (.Host (List.intercalate ['.'] ((l :: L) ++ [f])))) ∧
    (∀ l t, GoodLabel l → headStops isAnhChar t → t.head? ≠ some '.' →
      host (l ++ t) = .ok t (.Host l)) ∧
    host "example.123".toList = .ok ".123".toList (.Host "example".toList) :=
  ⟨host_multi, host_single, by rfl⟩

/-- Witness for C4: `"www.zupzup.org:443"` parses to the joined domain with
`":443"` left, `"localhost"` is accepted as a single label, and the
`"example.123"` quirk holds. -/
theorem c4_host_domains_witness :
    host (dotLabels ("www".toList :: ["zupzup".toList]) ++ ("org".toList ++ ":443".toList)) =
      .ok ":443".toList
        (.Host (List.intercalate ['.'] (("www".toList :: ["zupzup".toList]) ++ ["org".toList]))) ∧
    host ("localhost".toList ++ []) = .ok [] (.Host "localhost".toList) ∧
    host "example.123".toList = .ok ".123".toList (.Host "example".toList) := by
  refine ⟨?_, ?_, c4_host_domains.2.2⟩
  · exact c4_host_domains.1 "www".toList ["zupzup".toList] "org".toList ":443".toList
      ⟨by decide, by decide⟩ (by intro x hx; simp at hx; rw [hx]; exact ⟨by decide, by decide⟩)
      (by decide) (by decide) (headStops_cons _ _ _ (by decide)) (by decide)
  · exact c4_host_domains.2.1 "localhost".toList [] ⟨by decide, by decide⟩
      (headStops_nil _) (by decide)

/-! ## `query_params`, `path`, `fragment` -/

theorem qpPair_run (k v t : Input) (hk : ∀ c ∈ k, isUrlChar c) (hv : ∀ c ∈ v, isUrlChar c)
    (ht : headStops isUrlChar t) :
    qpPair ('&' :: (k ++ '=' :: (v ++ t))) = .ok t (k, v) := by
  have h1 : tagP "&".toList ('&' :: (k ++ '=' :: (v ++ t))) =
      .ok (k ++ '=' :: (v ++ t)) "&".toList := tagP_single_run '&' _
  have h2 : url_code_points (k ++ '=' :: (v ++ t)) = .ok ('=' :: (v ++ t)) k :=
    ucp_run k _ hk (headStops_cons _ _ _ (by decide))
  have h3 : tagP "=".toList ('=' :: (v ++ t)) = .ok (v ++ t) "=".toList :=
    tagP_single_run '=' _
  have h4 : url_code_points (v ++ t) = .ok t v := ucp_run v t hv ht
  simp only [qpPair, pbind, pmap, h1, h2, h3, h4]

theorem qpPair_err (t : Input) (hamp : t.head? ≠ some '&') : ∃ e, qpPair t = .err e := by
  have h1 : tagP "&".toList t = .err ⟨[(t, .Nomk .Tag)]⟩ := tagP_single_err '&' t hamp
  refine ⟨⟨[(t, .Nomk .Tag)]⟩, ?_⟩
  simp only [qpPair, pbind, h1]

theorem ampJoin_cons_append (kv : Input × Input) (kvs : List (Input × Input)) (u : Input) :
    ampJoin (kv :: kvs) ++ u = '&' :: (kv.1 ++ '=' :: (kv.2 ++ (ampJoin kvs ++ u))) := by
  simp [ampJoin]

theorem headStops_ampJoin (rest : List (Input × Input)) (u : Input)
    (hu : headStops isUrlChar u) : headStops isUrlChar (ampJoin rest ++ u) := by
  cases rest with
  | nil => simpa [ampJoin] using hu
  | cons kv2 kvs2 =>
    rw [ampJoin_cons_append]
    exact headStops_cons _ _ _ (by decide)

theorem many0Go_qp :
    ∀ (kvs : List (Input × Input)) (u : Input) (fuel : Nat),
      (∀ kv ∈ kvs, (∀ c ∈ kv.1, isUrlChar c) ∧ (∀ c ∈ kv.2, isUrlChar c)) →
      headStops isUrlChar u → u.head? ≠ some '&' →
      (ampJoin kvs ++ u).length < fuel →
      many0Go qpPair fuel (ampJoin kvs ++ u) = .ok u kvs := by
  intro kvs
  induction kvs with
  | nil =>
    intro u fuel _ hu hamp hfuel
    cases fuel with
    | zero => omega
    | succ f =>
      rcases qpPair_err u hamp with ⟨e, he⟩
      simp only [ampJoin, List.nil_append] at hfuel ⊢
      simp only [many0Go, he]
  | cons kv kvs ih =>
    intro u fuel hkv hu hamp hfuel
    obtain ⟨f, rfl⟩ : ∃ f, fuel = f + 1 := ⟨fuel - 1, by omega⟩
    obtain ⟨hk, hv⟩ := hkv kv (by simp)
    have hstop : headStops isUrlChar (ampJoin kvs ++ u) := headStops_ampJoin kvs u hu
    have hrun : qpPair (ampJoin (kv :: kvs) ++ u) = .ok (ampJoin kvs ++ u) (kv.1, kv.2) := by
      rw [ampJoin_cons_append]
      exact qpPair_run kv.1 kv.2 _ hk hv hstop
    have hleq : (ampJoin (kv :: kvs) ++ u).length =
        kv.1.length + kv.2.length + 2 + (ampJoin kvs ++ u).length := by
      rw [ampJoin_cons_append]
      simp [List.length_append, List.length_cons]
      omega
    have hlen : ¬ ((ampJoin kvs ++ u).length = (ampJoin (kv :: kvs) ++ u).length) := by
      omega
    have hrec := ih u f (fun x hx => hkv x (by simp [hx])) hu hamp (by omega)
    simp only [many0Go, hrun, if_neg hlen, hrec]

theorem many0P_qp (kvs : List (Input × Input)) (u : Input)
    (hkv : ∀ kv ∈ kvs, (∀ c ∈ kv.1, isUrlChar c) ∧ (∀ c ∈ kv.2, isUrlChar c))
    (hu : headStops isUrlChar u) (hamp : u.head? ≠ some '&') :
    many0P qpPair (ampJoin kvs ++ u) = .ok u kvs :=
  many0Go_qp kvs u ((ampJoin kvs ++ u).length + 1) hkv hu hamp (by omega)

theorem query_params_run (k v : Input) (rest : List (Input × Input)) (u : Input)
    (hk : ∀ c ∈ k, isUrlChar c) (hv : ∀ c ∈ v, isUrlChar c)
    (hrest : ∀ kv ∈ rest, (∀ c ∈ kv.1, isUrlChar c) ∧ (∀ c ∈ kv.2, isUrlChar c))
    (hu : headStops isUrlChar u) (hamp : u.head? ≠ some '&') :
    query_params ('?' :: (k ++ '=' :: (v ++ (ampJoin rest ++ u)))) =
      .ok u ((k, v) :: rest) := by
  have h1 : tagP "?".toList ('?' :: (k ++ '=' :: (v ++ (ampJoin rest ++ u)))) =
      .ok (k ++ '=' :: (v ++ (ampJoin rest ++ u))) "?".toList := tagP_single_run '?' _
  have h2 : url_code_points (k ++ '=' :: (v ++ (ampJoin rest ++ u))) =
      .ok ('=' :: (v ++ (ampJoin rest ++ u))) k :=
    ucp_run k _ hk (headStops_cons _ _ _ (by decide))
  have h3 : tagP "=".toList ('=' :: (v ++ (ampJoin rest ++ u))) =
      .ok (v ++ (ampJoin rest ++ u)) "=".toList := tagP_single_run '=' _
  have h4 : url_code_points (v ++ (ampJoin rest ++ u)) = .ok (ampJoin rest ++ u) v :=
    ucp_run v _ hv (headStops_ampJoin rest u hu)
  have h5 : many0P qpPair (ampJoin rest ++ u) = .ok u rest :=
    many0P_qp rest u hrest hu hamp
  simp only [query_params, contextP, pbind, pmap, h1, h2, h3, h4, h5]

/-- C8: `query_params` returns the key/value pairs in input order, keeping
duplicate keys as separate pairs; in particular `"?bla=5&blub=val#yay"`
succeeds with remainder `"#yay"` and pairs `[("bla","5"),("blub","val")]`. -/
theorem c8_query_params_order :
    (∀ k v rest u, (∀ c ∈ k, isUrlChar c) → (∀ c ∈ v, isUrlChar c) →
      (∀ kv ∈ rest, (∀ c ∈ kv.1, isUrlChar c) ∧ (∀ c ∈ kv.2, isUrlChar c)) →
      headStops isUrlChar u → u.head? ≠ some '&' →
      query_params ('?' :: (k ++ '=' :: (v ++ (ampJoin rest ++ u)))) =
        .ok u ((k, v) :: rest)) ∧
    query_params "?bla=5&blub=val#yay".toList =
      .ok "#yay".toList [("bla".toList, "5".toList), ("blub".toList, "val".toList)] :=
  ⟨query_params_run, by rfl⟩

/-- Witness for C8 with a duplicate key: `"?bla=5&bla=6#z"` keeps both
`("bla","5")` and `("bla","6")`, in input order, plus the concrete scenario. -/
theorem c8_query_params_order_witness :
    query_params ('?' :: ("bla".toList ++ '=' :: ("5".toList ++
        (ampJoin [("bla".toList, "6".toList)] ++ "#z".toList)))) =
      .ok "#z".toList [("bla".toList, "5".toList), ("bla".toList, "6".toList)] ∧
    query_params "?bla=5&blub=val#yay".toList =
      .ok "#yay".toList [("bla".toList, "5".toList), ("blub".toList, "val".toList)] := by
  refine ⟨?_, c8_query_params_order.2⟩
  exact c8_query_params_order.1 "bla".toList "5".toList [("bla".toList, "6".toList)]
    "#z".toList (by decide) (by decide)
    (by
      intro kv hkv
      simp only [List.mem_singleton] at hkv
      rw [hkv]
      exact ⟨by decide, by decide⟩)
    (headStops_cons _ _ _ (by decide)) (by decide)

/-- C10: `url_code_points` succeeds on every input, consuming the maximal
(possibly empty) prefix of alphanumeric, `-`, `.` characters; consequently
`query_params("?=5")` yields the empty-key pair `("","5")`, `path` keeps
interior empty segments (and drops only a trailing one), and `fragment("#")`
returns the empty string. -/
theorem c10_url_code_points_empty_tokens :
    (∀ i : Input, url_code_points i =
      .ok (i.drop (i.takeWhile isUrlChar).length) (i.takeWhile isUrlChar)) ∧
    query_params "?=5".toList = .ok [] [([], "5".toList)] ∧
    path "/a//b".toList = .ok [] ["a".toList, [], "b".toList] ∧
    path "/a//b/".toList = .ok [] ["a".toList, [], "b".toList] ∧
    fragment "#".toList = .ok [] [] :=
  ⟨fun _ => rfl, by rfl, by rfl, by rfl, by rfl⟩

/-! ## The top-level `uri` parser -/

/-- C1: `uri` runs `scheme` first (a scheme failure fails the whole parse,
wrapped in the `"uri"` context), then the optional authority, host-or-ip,
optional port, path, query and fragment in that fixed order; on
`"https://www.zupzup.org:443/about/?someVal=5#anchor"` it returns scheme
`Https`, no authority, host `"www.zupzup.org"`, port 443, path `["about"]`,
query `[("someVal","5")]`, fragment `"anchor"`, with empty remainder. -/
theorem c1_uri_round_trip :
    (∀ i e, scheme i = .err e → uri i = .err ⟨e.errors ++ [(i, .Context "uri")]⟩) ∧
    uri "https://www.zupzup.org:443/about/?someVal=5#anchor".toList =
      .ok [] ⟨.Https, none, .Host "www.zupzup.org".toList, some 443,
             some ["about".toList], some [("someVal".toList, "5".toList)],
             some "anchor".toList⟩ := by
  constructor
  · intro i e h
    simp only [uri, contextP, pbind, h]
  · rfl

/-- Witness for C1: the round-trip scenario itself, and the scheme-first
failure applied to `"bla://yay"`. -/
theorem c1_uri_round_trip_witness :
    uri "https://www.zupzup.org:443/about/?someVal=5#anchor".toList =
      .ok [] ⟨.Https, none, .Host "www.zupzup.org".toList, some 443,
             some ["about".toList], some [("someVal".toList, "5".toList)],
             some "anchor".toList⟩ ∧
    uri "bla://yay".toList =
      .err ⟨[("bla://yay".toList, .Nomk .Tag), ("bla://yay".toList, .Nomk .Alt),
             ("bla://yay".toList, .Context "scheme"),
             ("bla://yay".toList, .Context "uri")]⟩ := by
  constructor
  · exact c1_uri_round_trip.2
  · have h := c1_uri_round_trip.1 "bla://yay".toList
      ⟨[("bla://yay".toList, .Nomk .Tag), ("bla://yay".toList, .Nomk .Alt),
        ("bla://yay".toList, .Context "scheme")]⟩ (by rfl)
    exact h
